import Mathlib

/-!
Verification of the HyperQ warehouse-demo simulation core against its
design description.

The development shallowly embeds the JavaScript source:

* `AStarPathfinder` (grid pathfinder) over integer grid coordinates; the
  open list re-sorted each iteration by total cost `f` is modelled with a
  stable sort (`List.insertionSort` with a total `≤` comparator computes
  the unique stable sorted permutation, which is what the reference
  engine's stable `Array.prototype.sort` computes);
* the detection models (`AIModel`, `BaselineModel`, `QINAModel`) over real
  numbers, with each entity's two uniform draws passed in explicitly;
* the robot motion controller (`Robot.update`, `Robot.reset`) over real
  numbers, with `Math.atan2(y, x)` modelled by `Complex.arg ⟨x, y⟩` and the
  rotation-normalisation loop by its closed form.

The source loop of the pathfinder terminates because each iteration moves
one coordinate from the open list to the closed set and coordinates never
re-enter; the embedding makes this explicit with a fuel argument larger
than the number of cells, `gridSize ^ 3 + 2`.
-/

namespace HyperQ

/-- A grid coordinate, the `{x, y, z}` triples of the pathfinder. -/
structure Pt where
  x : Int
  y : Int
  z : Int
deriving DecidableEq, Repr

/-- The occupancy grid: `gridSize` nested lists of 0/1 cell values, as built
by `WarehouseEnvironment.createEmptyGrid` and `addBox`. -/
abbrev Grid := List (List (List Int))

/-- Cell access `grid[x][y][z]`; callers index only after the bounds check of
`getNeighbors`, so the defaults are never consulted on in-bounds access. -/
def gridAt (grid : Grid) (x y z : Int) : Int :=
  ((grid.getD x.toNat []).getD y.toNat []).getD z.toNat 0

/-- Manhattan distance in all three axes (`AStarPathfinder.heuristic`). -/
def heuristic (a b : Pt) : Int :=
  |a.x - b.x| + |a.y - b.y| + |a.z - b.z|

/-- The four axis moves of `getNeighbors` (vertical moves are commented out
in the source). -/
def directions : List (Int × Int × Int) :=
  [(1, 0, 0), (-1, 0, 0), (0, 0, 1), (0, 0, -1)]

/-- In-bounds test used by `getNeighbors`: each coordinate in
`[0, gridSize)` with `gridSize = grid.length`. -/
def inBoundsI (grid : Grid) (x y z : Int) : Prop :=
  0 ≤ x ∧ x < (grid.length : Int) ∧
  0 ≤ y ∧ y < (grid.length : Int) ∧
  0 ≤ z ∧ z < (grid.length : Int)

instance (grid : Grid) (x y z : Int) : Decidable (inBoundsI grid x y z) := by
  unfold inBoundsI
  infer_instance

/-- `AStarPathfinder.getNeighbors`: the in-bounds, unoccupied (`≠ 1`) cells
one axis step away. -/
def getNeighbors (grid : Grid) (x y z : Int) : List Pt :=
  directions.filterMap fun d =>
    let nx := x + d.1
    let ny := y + d.2.1
    let nz := z + d.2.2
    if inBoundsI grid nx ny nz ∧ gridAt grid nx ny nz ≠ 1 then
      some ⟨nx, ny, nz⟩
    else
      none

/-- A search node of the open list: coordinate, cost-from-start `g`, stored
heuristic `h`, total `f`, and the predecessor reference. Predecessors are
nodes already popped from the open list, which the source never mutates
again, so an immutable snapshot is faithful. -/
inductive ANode where
  | mk (x y z g h f : Int) (parent : Option ANode)

def ANode.x : ANode → Int
  | .mk x _ _ _ _ _ _ => x

def ANode.y : ANode → Int
  | .mk _ y _ _ _ _ _ => y

def ANode.z : ANode → Int
  | .mk _ _ z _ _ _ _ => z

def ANode.g : ANode → Int
  | .mk _ _ _ g _ _ _ => g

def ANode.h : ANode → Int
  | .mk _ _ _ _ h _ _ => h

def ANode.f : ANode → Int
  | .mk _ _ _ _ _ f _ => f

def ANode.parent : ANode → Option ANode
  | .mk _ _ _ _ _ _ p => p

/-- The coordinate of a node. -/
def ANode.pt (n : ANode) : Pt :=
  ⟨n.x, n.y, n.z⟩

/-- `AStarPathfinder.reconstructPath`: walk the predecessor references from
the popped goal node back to the start node (whose `parent` is `null`),
collecting coordinates start-exclusive, goal-inclusive. -/
def reconstructPath : ANode → List Pt
  | .mk _ _ _ _ _ _ none => []
  | .mk x y z _ _ _ (some p) => reconstructPath p ++ [⟨x, y, z⟩]

/-- The in-place relaxation of the source: the first (and, as the open list
holds one node per coordinate, only) open node at coordinate `c` gets the
lower cost `gScore`, recomputed `f`, and the new predecessor. -/
def relaxFirst (c : Pt) (gScore : Int) (par : ANode) : List ANode → List ANode
  | [] => []
  | n :: rest =>
    if n.pt = c then
      (if gScore < n.g then ANode.mk c.x c.y c.z gScore n.h (gScore + n.h) (some par) :: rest
       else n :: rest)
    else n :: relaxFirst c gScore par rest

/-- One neighbour of the per-iteration loop body of `findPath`: skip closed
coordinates, push unseen ones with `g = current.g + 1`, relax seen ones. -/
def processNeighbor (current : ANode) (ed : Pt) (closed : List Pt)
    (openL : List ANode) (nb : Pt) : List ANode :=
  if nb ∈ closed then openL
  else
    let gScore := current.g + 1
    match openL.find? (fun n => n.pt = nb) with
    | none =>
        openL ++ [ANode.mk nb.x nb.y nb.z gScore (heuristic nb ed)
                  (gScore + heuristic nb ed) (some current)]
    | some _ => relaxFirst nb gScore current openL

/-- The per-iteration re-sort of the open list by ascending `f`
(`openList.sort((a, b) => a.f - b.f)`, a stable sort). -/
def sortOpen (openL : List ANode) : List ANode :=
  openL.insertionSort (fun a b => a.f ≤ b.f)

/-- The search loop of `findPath`: sort, pop the minimum-`f` node, stop on
the goal, otherwise close the node and process its neighbours. Fuel only
caps the iteration count; `findPath` passes more fuel than the loop can
consume. -/
def aStarLoop (grid : Grid) (ed : Pt) : Nat → List ANode → List Pt → List Pt
  | 0, _, _ => []
  | fuel + 1, openL, closed =>
    match sortOpen openL with
    | [] => []
    | current :: rest =>
      if current.pt = ed then reconstructPath current
      else
        let closed2 := current.pt :: closed
        let openL2 := (getNeighbors grid current.x current.y current.z).foldl
          (processNeighbor current ed closed2) rest
        aStarLoop grid ed fuel openL2 closed2

/-- `AStarPathfinder.findPath`: empty path when start equals goal, otherwise
run the search from the start node. -/
def findPath (grid : Grid) (sx sy sz ex ey ez : Int) : List Pt :=
  if sx = ex ∧ sy = ey ∧ sz = ez then []
  else
    let st : Pt := ⟨sx, sy, sz⟩
    let ed : Pt := ⟨ex, ey, ez⟩
    aStarLoop grid ed (grid.length ^ 3 + 2)
      [ANode.mk sx sy sz 0 (heuristic st ed) (heuristic st ed) none] []

/-- An obstacle-free cubic grid of side `n` (all cells 0). -/
def freeGrid (n : Nat) : Grid :=
  List.replicate n (List.replicate n (List.replicate n 0))

/-- The 10×10×10 grid of the concrete scenario whose only occupied cell is
(5,5,5). -/
def obstacleGrid10 : Grid :=
  (List.range 10).map fun x =>
    (List.range 10).map fun y =>
      (List.range 10).map fun z =>
        if x = 5 ∧ y = 5 ∧ z = 5 then 1 else 0

/-! ### Goal-exclusion lemmas

If the goal cell can never appear in the open list — because it is occupied,
or out of bounds — the search exhausts and returns the empty path, for any
amount of fuel. -/

theorem relaxFirst_pt_mem {c : Pt} {gScore : Int} {par : ANode} :
    ∀ {l : List ANode} {m : ANode}, m ∈ relaxFirst c gScore par l →
      m.pt = c ∨ m.pt ∈ l.map ANode.pt := by
  intro l
  induction l with
  | nil => intro m hm; simp [relaxFirst] at hm
  | cons n rest ih =>
    intro m hm
    simp only [relaxFirst] at hm
    simp only [List.map_cons, List.mem_cons]
    by_cases hc : n.pt = c
    · simp only [hc, if_true] at hm
      by_cases hg : gScore < n.g
      · simp only [hg, if_true, List.mem_cons] at hm
        rcases hm with h | h
        · left
          subst h
          rfl
        · right; right; exact List.mem_map_of_mem ANode.pt h
      · simp only [hg, if_false, List.mem_cons] at hm
        rcases hm with h | h
        · right; left; rw [h]
        · right; right; exact List.mem_map_of_mem ANode.pt h
    · simp only [hc, if_false, List.mem_cons] at hm
      rcases hm with h | h
      · right; left; rw [h]
      · rcases ih h with h2 | h2
        · exact Or.inl h2
        · right; right; exact h2

theorem processNeighbor_pt_mem {current : ANode} {ed nb : Pt} {closed : List Pt}
    {openL : List ANode} {m : ANode}
    (hm : m ∈ processNeighbor current ed closed openL nb) :
    m.pt = nb ∨ m.pt ∈ openL.map ANode.pt := by
  unfold processNeighbor at hm
  by_cases hcl : nb ∈ closed
  · simp only [hcl, if_true] at hm
    exact Or.inr (List.mem_map_of_mem ANode.pt hm)
  · simp only [hcl, if_false] at hm
    cases hfind : openL.find? (fun n => n.pt = nb) with
    | none =>
      rw [hfind] at hm
      rcases List.mem_append.mp hm with h | h
      · exact Or.inr (List.mem_map_of_mem ANode.pt h)
      · left
        simp only [List.mem_singleton] at h
        subst h
        rfl
    | some n0 =>
      rw [hfind] at hm
      exact relaxFirst_pt_mem hm

theorem mem_getNeighbors {grid : Grid} {x y z : Int} {p : Pt}
    (hp : p ∈ getNeighbors grid x y z) :
    inBoundsI grid p.x p.y p.z ∧ gridAt grid p.x p.y p.z ≠ 1 := by
  simp only [getNeighbors, List.mem_filterMap] at hp
  obtain ⟨d, _, hd⟩ := hp
  split at hd
  · simp only [Option.some.injEq] at hd
    subst hd
    assumption
  · simp at hd

/-- Core exhaustion lemma: when no open node sits on the goal coordinate and
the goal cell is occupied whenever it is in bounds, the loop returns the
empty path — for every fuel value. -/
theorem aStarLoop_eq_nil_of_goal_excluded {grid : Grid} {ed : Pt}
    (hed : inBoundsI grid ed.x ed.y ed.z → gridAt grid ed.x ed.y ed.z = 1) :
    ∀ (fuel : Nat) (openL : List ANode) (closed : List Pt),
      (∀ n ∈ openL, n.pt ≠ ed) → aStarLoop grid ed fuel openL closed = [] := by
  intro fuel
  induction fuel with
  | zero => intro openL closed _; rfl
  | succ fuel ih =>
    intro openL closed hopen
    unfold aStarLoop
    cases hs : sortOpen openL with
    | nil => rfl
    | cons current rest =>
      have hmemsort : ∀ n ∈ sortOpen openL, n ∈ openL := fun n hn =>
        (List.perm_insertionSort _ openL).mem_iff.mp hn
      have hcur : current.pt ≠ ed := by
        apply hopen
        apply hmemsort
        rw [hs]
        exact List.mem_cons_self _ _
      simp only [hcur, if_false]
      apply ih
      intro n hn
      have := List.foldlRecOn
        (motive := fun (l : List ANode) => ∀ m ∈ l, m.pt ≠ ed)
        (getNeighbors grid current.x current.y current.z)
        (processNeighbor current ed (current.pt :: closed))
        rest
        (fun m hm => by
          apply hopen
          apply hmemsort
          rw [hs]
          exact List.mem_cons_of_mem _ hm)
        (fun b hb nb hnb => by
          intro m hm
          rcases processNeighbor_pt_mem hm with h | h
          · rw [h]
            intro hcontra
            subst hcontra
            have hnbp := mem_getNeighbors hnb
            exact absurd (hed hnbp.1) hnbp.2
          · simp only [List.mem_map] at h
            obtain ⟨a, ha, hpa⟩ := h
            rw [← hpa]
            exact hb a ha)
      exact this n hn

/-! ### Planner theorems: occupied goals, out-of-bounds coordinates, and the
concrete obstacle scenario -/

/-- C10: for every grid and distinct in-bounds start and goal, an occupied
goal cell (grid value 1) makes `findPath` return the empty path: occupied
cells are excluded from every neighbour set, so the goal is never reached. -/
theorem findPath_occupied_goal_empty (grid : Grid) (sx sy sz ex ey ez : Int)
    (_hs : inBoundsI grid sx sy sz) (_he : inBoundsI grid ex ey ez)
    (hne : ¬ (sx = ex ∧ sy = ey ∧ sz = ez))
    (hocc : gridAt grid ex ey ez = 1) :
    findPath grid sx sy sz ex ey ez = [] := by
  unfold findPath
  rw [if_neg hne]
  apply aStarLoop_eq_nil_of_goal_excluded (fun _ => hocc)
  intro n hn
  simp only [List.mem_singleton] at hn
  subst hn
  simp only [ANode.pt, ANode.x, ANode.y, ANode.z, ne_eq, Pt.mk.injEq]
  exact hne

/-- C10 witness: planning from (0,5,5) to the occupied cell (5,5,5) of the
scenario grid yields the empty path. -/
theorem findPath_occupied_goal_empty_witness :
    inBoundsI obstacleGrid10 0 5 5 ∧ inBoundsI obstacleGrid10 5 5 5 ∧
    gridAt obstacleGrid10 5 5 5 = 1 ∧
    findPath obstacleGrid10 0 5 5 5 5 5 = [] :=
  ⟨by decide, by decide, by decide,
    findPath_occupied_goal_empty obstacleGrid10 0 5 5 5 5 5
      (by decide) (by decide) (by decide) (by decide)⟩

/-- C4 (amended): `findPath` performs no coordinate validation and signals
nothing; when the goal lies outside the grid bounds (and differs from the
start) it returns the ordinary empty path, indistinguishable from the
no-path and already-at-goal results. -/
theorem findPath_out_of_bounds_goal_empty (grid : Grid) (sx sy sz ex ey ez : Int)
    (hoob : ¬ inBoundsI grid ex ey ez)
    (hne : ¬ (sx = ex ∧ sy = ey ∧ sz = ez)) :
    findPath grid sx sy sz ex ey ez = [] := by
  unfold findPath
  rw [if_neg hne]
  apply aStarLoop_eq_nil_of_goal_excluded (fun hin => absurd hin hoob)
  intro n hn
  simp only [List.mem_singleton] at hn
  subst hn
  simp only [ANode.pt, ANode.x, ANode.y, ANode.z, ne_eq, Pt.mk.injEq]
  exact hne

/-- C4 witness: on an obstacle-free 3×3×3 grid, the out-of-bounds goal
(3,0,0) yields the empty path. -/
theorem findPath_out_of_bounds_goal_empty_witness :
    ¬ inBoundsI (freeGrid 3) 3 0 0 ∧ ¬ ((0 : Int) = 3 ∧ (0 : Int) = 0 ∧ (0 : Int) = 0) ∧
    findPath (freeGrid 3) 0 0 0 3 0 0 = [] :=
  ⟨by decide, by decide,
    findPath_out_of_bounds_goal_empty (freeGrid 3) 0 0 0 3 0 0 (by decide) (by decide)⟩

/-- C4 counterexample: no `InvalidCoordinate` condition exists. A call with
the out-of-bounds goal (3,0,0) completes normally with the ordinary empty
path, and a call with the out-of-bounds start (-1,0,0) is searched from
directly, returning an ordinary non-empty path into the grid — nothing is
rejected. -/
theorem findPath_out_of_bounds_no_rejection :
    findPath (freeGrid 3) 0 0 0 3 0 0 = [] ∧
    findPath (freeGrid 3) (-1) 0 0 1 0 0 = [⟨0, 0, 0⟩, ⟨1, 0, 0⟩] := by
  constructor
  · decide
  · decide

/-- C3 counterexample: in the concrete scenario (10×10×10 grid, single
obstacle at (5,5,5), start (0,5,5), goal (9,5,5)) the returned path has
length 11, not the claimed 9: the straight line is blocked and the detour
around the obstacle costs two extra unit steps. -/
theorem findPath_obstacle_scenario_length_eleven :
    (findPath obstacleGrid10 0 5 5 9 5 5).length = 11 := by
  decide

/-- C3 (amended): the planner routes around the obstacle, producing a path
of length 11 none of whose waypoints is the occupied cell (5,5,5). -/
theorem findPath_obstacle_scenario_avoids_obstacle :
    (findPath obstacleGrid10 0 5 5 9 5 5).length = 11 ∧
    decide ((⟨5, 5, 5⟩ : Pt) ∈ findPath obstacleGrid10 0 5 5 9 5 5) = false := by
  constructor
  · decide
  · decide

/-! ### Detection models

`AIModel.detect` measures the wall time of `_runDetection` with
`performance.now()`; the measured elapsed milliseconds enter the embedding
as the explicit `elapsedMs` input. Each entity consumes two uniform [0,1)
draws, the noise draw and the systematic-miss draw, passed as a list
aligned with the entity list. -/

/-- A target entity as the detection models read it: position, rotation in
degrees and scale (`warehouse.boxes` entries). -/
structure Box where
  px : ℝ
  py : ℝ
  pz : ℝ
  rotation : ℝ
  scale : ℝ

/-- One reported detection: the entity's position and the computed
probability as confidence. -/
structure Detection where
  px : ℝ
  py : ℝ
  pz : ℝ
  confidence : ℝ

/-- The mutable statistics fields of `AIModel`. -/
structure AIModelState where
  detections : List Detection
  processTime : ℝ
  missRate : ℚ
  totalDetections : ℚ
  missedDetections : ℚ

/-- The state `AIModel`'s constructor and `AIModel.reset` both establish:
everything zeroed. -/
noncomputable def modelResetState : AIModelState :=
  { detections := [], processTime := 0, missRate := 0,
    totalDetections := 0, missedDetections := 0 }

/-- `AIModel.calculateMissRate`: add this pass's totals to the persistent
counters and recompute the cumulative percentage, 0 while nothing was
evaluated. -/
def calculateMissRate (st : AIModelState) (detected total : ℚ) : AIModelState :=
  let totalDetections := st.totalDetections + total
  let missedDetections := st.missedDetections + (total - detected)
  { st with
    totalDetections := totalDetections
    missedDetections := missedDetections
    missRate := if 0 < totalDetections then missedDetections / totalDetections * 100 else 0 }

/-- Baseline per-entity probability: `1.0` minus the rotation penalty
`|sin(rotation·π/90)|·0.5`, the scale penalty `|scale−1.0|·0.5` and the
noise penalty `noiseDraw·0.2` (`BaselineModel._runDetection`). -/
noncomputable def baselineProbability (b : Box) (noiseDraw : ℝ) : ℝ :=
  1.0 - |Real.sin (b.rotation * Real.pi / 90)| * 0.5 - |b.scale - 1.0| * 0.5 - noiseDraw * 0.2

/-- Baseline per-entity miss condition: probability below the threshold 0.5,
or the systematic-miss draw under 0.10. -/
def baselineMiss (b : Box) (noiseDraw sysDraw : ℝ) : Prop :=
  baselineProbability b noiseDraw < 0.5 ∨ sysDraw < 0.1

/-- QINA per-entity probability: same shape with the gentler constants 0.2,
0.2 and 0.1 (`QINAModel._runDetection`). -/
noncomputable def qinaProbability (b : Box) (noiseDraw : ℝ) : ℝ :=
  1.0 - |Real.sin (b.rotation * Real.pi / 90)| * 0.2 - |b.scale - 1.0| * 0.2 - noiseDraw * 0.1

/-- QINA per-entity miss condition: probability below the threshold 0.3, or
the systematic-miss draw under 0.02. -/
def qinaMiss (b : Box) (noiseDraw sysDraw : ℝ) : Prop :=
  qinaProbability b noiseDraw < 0.3 ∨ sysDraw < 0.02

open Classical in
/-- `BaselineModel._runDetection`: score each entity against its draw pair,
record the survivors as detections and feed the counts to
`calculateMissRate`. -/
noncomputable def baselineRunDetection (st : AIModelState) (boxes : List Box)
    (draws : List (ℝ × ℝ)) : AIModelState :=
  let scored := boxes.zip draws
  let hits := scored.filter fun bd => ¬ baselineMiss bd.1 bd.2.1 bd.2.2
  let st1 := { st with detections := hits.map fun bd =>
    ⟨bd.1.px, bd.1.py, bd.1.pz, baselineProbability bd.1 bd.2.1⟩ }
  calculateMissRate st1 (hits.length : ℚ) (boxes.length : ℚ)

open Classical in
/-- `QINAModel._runDetection`: as the baseline pass with QINA's constants,
followed by the source's final line `this.processTime *= 0.85` — which at
this point still holds the value measured for the previous pass. -/
noncomputable def qinaRunDetection (st : AIModelState) (boxes : List Box)
    (draws : List (ℝ × ℝ)) : AIModelState :=
  let scored := boxes.zip draws
  let hits := scored.filter fun bd => ¬ qinaMiss bd.1 bd.2.1 bd.2.2
  let st1 := { st with detections := hits.map fun bd =>
    ⟨bd.1.px, bd.1.py, bd.1.pz, qinaProbability bd.1 bd.2.1⟩ }
  let st2 := calculateMissRate st1 (hits.length : ℚ) (boxes.length : ℚ)
  { st2 with processTime := st2.processTime * 0.85 }

/-- `AIModel.detect` for the baseline model: run the scoring pass, then
overwrite `processTime` with the measured elapsed seconds. -/
noncomputable def baselineDetect (st : AIModelState) (boxes : List Box)
    (draws : List (ℝ × ℝ)) (elapsedMs : ℝ) : AIModelState :=
  let st1 := baselineRunDetection st boxes draws
  { st1 with processTime := elapsedMs / 1000 }

/-- `AIModel.detect` for the QINA model: run the scoring pass (whose last
line scales the stale `processTime` by 0.85), then overwrite `processTime`
with the measured elapsed seconds. -/
noncomputable def qinaDetect (st : AIModelState) (boxes : List Box)
    (draws : List (ℝ × ℝ)) (elapsedMs : ℝ) : AIModelState :=
  let st1 := qinaRunDetection st boxes draws
  { st1 with processTime := elapsedMs / 1000 }

/-- C1 (code bug): the `processTime` a QINA evaluation pass returns equals
the raw elapsed scoring time in seconds, not 0.85 of it: `detect` overwrites
`processTime` after `_runDetection` has already multiplied the stale
previous value by 0.85, so the advertised 15% reporting advantage never
reaches the returned result. The scoring outcome itself (detections and
miss rate) is indeed unaffected by the scaling line. Concretely, a pass
whose scoring took 1000 ms reports 1 s where the claim requires 0.85 s. -/
theorem qina_processTime_unscaled :
    (∀ (st : AIModelState) (boxes : List Box) (draws : List (ℝ × ℝ)) (elapsedMs : ℝ),
      (qinaDetect st boxes draws elapsedMs).processTime = elapsedMs / 1000 ∧
      (qinaDetect st boxes draws elapsedMs).detections
        = (qinaRunDetection st boxes draws).detections ∧
      (qinaDetect st boxes draws elapsedMs).missRate
        = (qinaRunDetection st boxes draws).missRate ∧
      (qinaRunDetection st boxes draws).processTime = st.processTime * 0.85) ∧
    (qinaDetect modelResetState [] [] 1000).processTime = 1 ∧
    (0.85 : ℝ) * (1000 / 1000) < 1 := by
  refine ⟨fun st boxes draws elapsedMs => ⟨rfl, rfl, rfl, rfl⟩, ?_, by norm_num⟩
  show (1000 : ℝ) / 1000 = 1
  norm_num

/-- C5: for identical rotation, scale and shared noise and systematic-miss
draws, an entity QINA counts as a miss is also a miss for the baseline
model, given the constant table (thresholds 0.3 vs 0.5, penalties 0.2/0.2/0.1
vs 0.5/0.5/0.2, systematic rates 0.02 vs 0.10). -/
theorem qina_miss_implies_baseline_miss (b : Box) (noiseDraw sysDraw : ℝ)
    (hmiss : qinaMiss b noiseDraw sysDraw) :
    baselineMiss b noiseDraw sysDraw := by
  unfold qinaMiss qinaProbability at hmiss
  unfold baselineMiss baselineProbability
  rcases hmiss with hp | hsys
  · left
    have hr : 0 ≤ |Real.sin (b.rotation * Real.pi / 90)| := abs_nonneg _
    have hsc : 0 ≤ |b.scale - 1.0| := abs_nonneg _
    linarith
  · right
    linarith

/-- C5 witness: an entity with rotation 0 and scale 1 and both draws 0 is a
QINA miss through the systematic branch (0 < 0.02), hence a baseline miss. -/
theorem qina_miss_implies_baseline_miss_witness :
    qinaMiss ⟨0, 0, 0, 0, 1⟩ 0 0 ∧ baselineMiss ⟨0, 0, 0, 0, 1⟩ 0 0 :=
  ⟨Or.inr (by norm_num),
    qina_miss_implies_baseline_miss ⟨0, 0, 0, 0, 1⟩ 0 0 (Or.inr (by norm_num))⟩

/-- A statistics state whose stored `missRate` agrees with its counters, the
shape `calculateMissRate` always re-establishes. -/
def consistentStats (st : AIModelState) : Prop :=
  st.missRate =
    if 0 < st.totalDetections then st.missedDetections / st.totalDetections * 100 else 0

theorem calculateMissRate_consistent (st : AIModelState) (detected total : ℚ) :
    consistentStats (calculateMissRate st detected total) := by
  simp [consistentStats, calculateMissRate]

/-- The per-model counters folded over a sequence of (detected, evaluated)
pass outcomes starting from the reset state. -/
noncomputable def foldPasses (passes : List (Nat × Nat)) : AIModelState :=
  passes.foldl (fun st p => calculateMissRate st (p.1 : ℚ) (p.2 : ℚ)) modelResetState

theorem foldl_calculateMissRate_totals (passes : List (Nat × Nat)) :
    ∀ st : AIModelState,
      (passes.foldl (fun s p => calculateMissRate s (p.1 : ℚ) (p.2 : ℚ)) st).totalDetections
        = st.totalDetections + (passes.map fun p => (p.2 : ℚ)).sum ∧
      (passes.foldl (fun s p => calculateMissRate s (p.1 : ℚ) (p.2 : ℚ)) st).missedDetections
        = st.missedDetections + (passes.map fun p => ((p.2 : ℚ) - (p.1 : ℚ))).sum := by
  induction passes with
  | nil => intro st; simp
  | cons p rest ih =>
    intro st
    simp only [List.foldl_cons, List.map_cons, List.sum_cons]
    rcases ih (calculateMissRate st (p.1 : ℚ) (p.2 : ℚ)) with ⟨h1, h2⟩
    constructor
    · rw [h1]
      simp [calculateMissRate]
      ring
    · rw [h2]
      simp [calculateMissRate]
      ring

theorem foldl_calculateMissRate_consistent (passes : List (Nat × Nat)) :
    ∀ st : AIModelState, consistentStats st →
      consistentStats (passes.foldl (fun s p => calculateMissRate s (p.1 : ℚ) (p.2 : ℚ)) st) := by
  induction passes with
  | nil => intro st h; exact h
  | cons p rest ih =>
    intro st _
    exact ih _ (calculateMissRate_consistent st _ _)

theorem foldPasses_consistent (passes : List (Nat × Nat)) :
    consistentStats (foldPasses passes) := by
  apply foldl_calculateMissRate_consistent
  simp [consistentStats, modelResetState]

/-- C6: across any sequence of evaluation passes since reset, the reported
miss-rate is the cumulative ratio — the sum of per-pass missed counts over
the sum of per-pass evaluated counts, times 100 — and 0 while the cumulative
evaluated count is 0; and one further pass over an empty entity list yields
no detections and leaves the reported miss-rate at its prior cumulative
value. -/
theorem missRate_is_cumulative (passes : List (Nat × Nat)) :
    ((foldPasses passes).missRate =
      if 0 < (passes.map fun p => (p.2 : ℚ)).sum
      then (passes.map fun p => ((p.2 : ℚ) - (p.1 : ℚ))).sum
            / (passes.map fun p => (p.2 : ℚ)).sum * 100
      else 0) ∧
    (baselineRunDetection (foldPasses passes) [] []).detections = [] ∧
    (baselineRunDetection (foldPasses passes) [] []).missRate
      = (foldPasses passes).missRate := by
  have htot := foldl_calculateMissRate_totals passes modelResetState
  have hcons := foldPasses_consistent passes
  have htot1 : (foldPasses passes).totalDetections = (passes.map fun p => (p.2 : ℚ)).sum := by
    have := htot.1
    simpa [foldPasses, modelResetState] using this
  have htot2 : (foldPasses passes).missedDetections
      = (passes.map fun p => ((p.2 : ℚ) - (p.1 : ℚ))).sum := by
    have := htot.2
    simpa [foldPasses, modelResetState] using this
  refine ⟨?_, ?_, ?_⟩
  · rw [consistentStats] at hcons
    rw [hcons, htot1, htot2]
  · simp [baselineRunDetection, calculateMissRate]
  · rw [consistentStats] at hcons
    simp only [baselineRunDetection, List.zip_nil_left, List.filter_nil, List.map_nil,
      List.length_nil, calculateMissRate]
    simp only [Nat.cast_zero, add_zero, sub_zero]
    rw [hcons]

/-! ### Robot motion controller

`Robot.update` reads only `position.x/z`, `path`, `moving`,
`currentRotation`, `speed` and `rotationSpeed`, and the snap assignment
copies the whole waypoint. `Math.atan2(y, x)` is `Complex.arg ⟨x, y⟩`
(range (−π, π], 0 at the origin, like the engine's atan2 on exact inputs),
and the two `while` loops normalising a rotation difference into [−π, π]
are embedded by their closed form: each loop runs the least number of
2π-shifts that lands in range, which is the integer ceiling below. -/

/-- A continuous 3D position or waypoint. -/
structure Vec3 where
  x : ℝ
  y : ℝ
  z : ℝ

/-- The robot state: continuous pose, waypoint queue, motion flag, and the
per-instance rate constants (the constructor fixes `speed = 1.0`,
`rotationSpeed = 5.0`). -/
structure RobotState where
  position : Vec3
  targetPosition : Option Vec3
  path : List Vec3
  moving : Bool
  speed : ℝ
  rotationSpeed : ℝ
  currentRotation : ℝ
  targetRotation : ℝ

/-- The state the `Robot` constructor builds at (x, y, z). -/
noncomputable def robotInit (x y z : ℝ) : RobotState :=
  { position := ⟨x, y, z⟩, targetPosition := none, path := [], moving := false,
    speed := 1, rotationSpeed := 5, currentRotation := 0, targetRotation := 0 }

/-- `Robot.reset`: position to the given values, heading to the initial 0,
path cleared, idle. The rate constants are untouched. -/
noncomputable def robotReset (x y z : ℝ) (s : RobotState) : RobotState :=
  { s with position := ⟨x, y, z⟩, targetPosition := none, path := [],
           moving := false, currentRotation := 0, targetRotation := 0 }

/-- `Math.atan2(y, x)` as the argument of the complex number x + y·i. -/
noncomputable def atan2 (y x : ℝ) : ℝ :=
  Complex.arg ⟨x, y⟩

/-- Closed form of the source's normalisation loops: subtract (or add) 2π
the least number of times that brings the angle into [−π, π]. -/
noncomputable def normalizeRot (θ : ℝ) : ℝ :=
  if Real.pi < θ then θ - 2 * Real.pi * (⌈(θ - Real.pi) / (2 * Real.pi)⌉ : ℤ)
  else if θ < -Real.pi then θ + 2 * Real.pi * (⌈(-Real.pi - θ) / (2 * Real.pi)⌉ : ℤ)
  else θ

/-- `Robot.update(deltaTime)`: when moving with a nonempty path, turn toward
the front waypoint at most `rotationSpeed·deltaTime`, and, if the heading
error before the turn was within the 0.1 rad alignment tolerance, advance
`speed·deltaTime` toward the waypoint, snapping onto it (and popping it,
going idle when the path empties) when within one step. -/
noncomputable def robotUpdate (deltaTime : ℝ) (s : RobotState) : RobotState :=
  match s.path with
  | [] => s
  | nextPoint :: restPath =>
    if s.moving then
      let dx := nextPoint.x - s.position.x
      let dz := nextPoint.z - s.position.z
      let distance := Real.sqrt (dx * dx + dz * dz)
      let targetRotation := atan2 dz dx
      let rotDiff := targetRotation - s.currentRotation
      let normalizedRotDiff := normalizeRot rotDiff
      let rotStep := s.rotationSpeed * deltaTime
      let currentRotation :=
        if rotStep < |normalizedRotDiff| then
          s.currentRotation + Real.sign normalizedRotDiff * rotStep
        else targetRotation
      if |normalizedRotDiff| < 0.1 then
        let step := s.speed * deltaTime
        if distance ≤ step then
          { s with position := nextPoint, path := restPath,
                   moving := if restPath.isEmpty then false else s.moving,
                   currentRotation := currentRotation,
                   targetRotation := targetRotation }
        else
          { s with position := ⟨s.position.x + dx * (step / distance),
                                s.position.y,
                                s.position.z + dz * (step / distance)⟩,
                   currentRotation := currentRotation,
                   targetRotation := targetRotation }
      else
        { s with currentRotation := currentRotation,
                 targetRotation := targetRotation }
    else s

/-- C9: `reset(x, y, z)` followed by one `update` of any `deltaTime` leaves
the state exactly at the reset values: position (x, y, z), heading at the
initial value 0, empty path, idle — the update's moving-and-nonempty-path
guard fails, so the tick is a no-op. -/
theorem robot_reset_then_update (s : RobotState) (deltaTime x y z : ℝ) :
    robotUpdate deltaTime (robotReset x y z s) = robotReset x y z s ∧
    (robotReset x y z s).position = ⟨x, y, z⟩ ∧
    (robotReset x y z s).currentRotation = 0 ∧
    (robotReset x y z s).path = [] ∧
    (robotReset x y z s).moving = false :=
  ⟨rfl, rfl, rfl, rfl, rfl⟩

/-! ### Normalisation lemmas -/

theorem normalizeRot_sub_int (θ : ℝ) : ∃ k : ℤ, normalizeRot θ = θ - 2 * Real.pi * k := by
  unfold normalizeRot
  split
  · exact ⟨_, rfl⟩
  · split
    · refine ⟨-⌈(-Real.pi - θ) / (2 * Real.pi)⌉, ?_⟩
      push_cast
      ring
    · exact ⟨0, by simp⟩

theorem normalizeRot_mem (θ : ℝ) :
    -Real.pi ≤ normalizeRot θ ∧ normalizeRot θ ≤ Real.pi := by
  have h2pi : 0 < 2 * Real.pi := by positivity
  unfold normalizeRot
  split
  case isTrue h =>
    set k := ⌈(θ - Real.pi) / (2 * Real.pi)⌉ with hk
    have hle : (θ - Real.pi) / (2 * Real.pi) ≤ (k : ℝ) := Int.le_ceil _
    have hlt : (k : ℝ) < (θ - Real.pi) / (2 * Real.pi) + 1 := Int.ceil_lt_add_one _
    have h1 : θ - Real.pi ≤ 2 * Real.pi * (k : ℝ) := by
      rw [div_le_iff₀ h2pi] at hle
      linarith
    have hlt2 : ((k : ℝ) - 1) * (2 * Real.pi) < θ - Real.pi := by
      rw [← lt_div_iff₀ h2pi]
      linarith
    constructor
    · nlinarith [hlt2]
    · linarith
  case isFalse h =>
    split
    case isTrue h3 =>
      set k := ⌈(-Real.pi - θ) / (2 * Real.pi)⌉ with hk
      have hle : (-Real.pi - θ) / (2 * Real.pi) ≤ (k : ℝ) := Int.le_ceil _
      have hlt : (k : ℝ) < (-Real.pi - θ) / (2 * Real.pi) + 1 := Int.ceil_lt_add_one _
      have h1 : -Real.pi - θ ≤ 2 * Real.pi * (k : ℝ) := by
        rw [div_le_iff₀ h2pi] at hle
        linarith
      have hlt2 : ((k : ℝ) - 1) * (2 * Real.pi) < -Real.pi - θ := by
        rw [← lt_div_iff₀ h2pi]
        linarith
      constructor
      · linarith
      · nlinarith [hlt2]
    case isFalse h3 =>
      push_neg at h h3
      exact ⟨h3, h⟩

theorem normalizeRot_eq_self {θ : ℝ} (h1 : -Real.pi ≤ θ) (h2 : θ ≤ Real.pi) :
    normalizeRot θ = θ := by
  unfold normalizeRot
  rw [if_neg (by linarith), if_neg (by linarith)]

theorem normalizeRot_zero : normalizeRot 0 = 0 :=
  normalizeRot_eq_self (by linarith [Real.pi_pos]) (le_of_lt Real.pi_pos)

/-- Two angles equal modulo 2π with the second in [−π, π] have normalised
forms of the same magnitude (the boundary ±π is the only ambiguity and it
preserves the absolute value). -/
theorem normalizeRot_abs_eq {θ ψ : ℝ} (k : ℤ) (hk : θ - ψ = 2 * Real.pi * k)
    (hψ : |ψ| ≤ Real.pi) : |normalizeRot θ| = |ψ| := by
  obtain ⟨k0, hk0⟩ := normalizeRot_sub_int θ
  obtain ⟨hm1, hm2⟩ := normalizeRot_mem θ
  set n := normalizeRot θ with hn
  have hpi : 0 < Real.pi := Real.pi_pos
  rw [abs_le] at hψ
  have hdiff : n - ψ = 2 * Real.pi * ((k : ℝ) - (k0 : ℝ)) := by
    rw [hk0]
    rw [sub_eq_iff_eq_add] at hk
    rw [hk]
    ring
  have hbound : |k - k0| ≤ 1 := by
    have h1 : |n - ψ| ≤ 2 * Real.pi := by
      rw [abs_le]
      constructor <;> linarith
    rw [hdiff, abs_mul, abs_of_pos (by positivity : (0 : ℝ) < 2 * Real.pi)] at h1
    have h2 : |(k : ℝ) - (k0 : ℝ)| ≤ 1 := by nlinarith [h1]
    have h3 : ((|k - k0| : ℤ) : ℝ) ≤ 1 := by
      rw [Int.cast_abs]
      push_cast
      exact h2
    exact_mod_cast h3
  have hk01 : k - k0 = -1 ∨ k - k0 = 0 ∨ k - k0 = 1 := by
    rcases abs_le.mp hbound with ⟨hb1, hb2⟩
    omega
  rcases hk01 with h | h | h
  · have hcast : (k : ℝ) - (k0 : ℝ) = -1 := by
      have := congrArg (Int.cast : ℤ → ℝ) h
      push_cast at this
      linarith
    rw [hcast] at hdiff
    have hd : n = ψ - 2 * Real.pi := by nlinarith [hdiff]
    have hnπ : n = -Real.pi := by linarith [hψ.2, hm1]
    have hψπ : ψ = Real.pi := by linarith
    rw [hnπ, hψπ, abs_neg]
  · have hcast : (k : ℝ) - (k0 : ℝ) = 0 := by
      have := congrArg (Int.cast : ℤ → ℝ) h
      push_cast at this
      linarith
    rw [hcast, mul_zero, sub_eq_zero] at hdiff

    rw [hdiff]
  · have hcast : (k : ℝ) - (k0 : ℝ) = 1 := by
      have := congrArg (Int.cast : ℤ → ℝ) h
      push_cast at this
      linarith
    rw [hcast] at hdiff
    have hd : n = ψ + 2 * Real.pi := by nlinarith [hdiff]
    have hnπ : n = Real.pi := by linarith [hψ.1, hm2]
    have hψπ : ψ = -Real.pi := by linarith
    rw [hnπ, hψπ, abs_neg]

/-! ### Heading-error behaviour of one tick (C8) -/

/-- The rotation side of one moving tick: the stored target heading becomes
the angle to the front waypoint, and the heading turns toward it by at most
`rotationSpeed·deltaTime`, snapping exactly onto it when within that step. -/
theorem robotUpdate_rotation (s : RobotState) (dt : ℝ) (w : Vec3) (rest : List Vec3)
    (hpath : s.path = w :: rest) (hmov : s.moving = true) :
    (robotUpdate dt s).targetRotation
      = atan2 (w.z - s.position.z) (w.x - s.position.x) ∧
    (robotUpdate dt s).currentRotation =
      (if s.rotationSpeed * dt
          < |normalizeRot (atan2 (w.z - s.position.z) (w.x - s.position.x)
              - s.currentRotation)| then
        s.currentRotation
          + Real.sign (normalizeRot (atan2 (w.z - s.position.z) (w.x - s.position.x)
              - s.currentRotation)) * (s.rotationSpeed * dt)
      else atan2 (w.z - s.position.z) (w.x - s.position.x)) := by
  constructor
  · simp only [robotUpdate, hpath, hmov, if_true]
    split
    · split <;> rfl
    · rfl
  · simp only [robotUpdate, hpath, hmov, if_true]
    split
    · split <;> rfl
    · rfl

/-- C8: on a moving tick with a nonempty path and Δt > 0, the absolute
normalised heading error with respect to the tick's target heading never
increases: it drops to exactly 0 once within one tick's rotation budget
`rotationSpeed·Δt` (no overshoot at all — in particular never more than one
budget past the target), and otherwise decreases by exactly that budget. -/
theorem heading_error_non_increasing (s : RobotState) (dt : ℝ) (w : Vec3) (rest : List Vec3)
    (hpath : s.path = w :: rest) (hmov : s.moving = true)
    (hdt : 0 < dt) (hrot : 0 < s.rotationSpeed) :
    |normalizeRot ((robotUpdate dt s).targetRotation - (robotUpdate dt s).currentRotation)|
      ≤ |normalizeRot ((robotUpdate dt s).targetRotation - s.currentRotation)| ∧
    (|normalizeRot ((robotUpdate dt s).targetRotation - s.currentRotation)|
        ≤ s.rotationSpeed * dt →
      |normalizeRot ((robotUpdate dt s).targetRotation - (robotUpdate dt s).currentRotation)|
        = 0) ∧
    (s.rotationSpeed * dt
        < |normalizeRot ((robotUpdate dt s).targetRotation - s.currentRotation)| →
      |normalizeRot ((robotUpdate dt s).targetRotation - (robotUpdate dt s).currentRotation)|
        = |normalizeRot ((robotUpdate dt s).targetRotation - s.currentRotation)|
          - s.rotationSpeed * dt) := by
  obtain ⟨htgt, hcur⟩ := robotUpdate_rotation s dt w rest hpath hmov
  set θ := atan2 (w.z - s.position.z) (w.x - s.position.x) with hθ
  set n := normalizeRot (θ - s.currentRotation) with hn
  have hstep : 0 < s.rotationSpeed * dt := mul_pos hrot hdt
  have hmem := normalizeRot_mem (θ - s.currentRotation)
  obtain ⟨k0, hk0⟩ := normalizeRot_sub_int (θ - s.currentRotation)
  rw [htgt, hcur]
  by_cases hbig : s.rotationSpeed * dt < |n|
  · rw [if_pos hbig]
    have hsub : (θ - (s.currentRotation + Real.sign n * (s.rotationSpeed * dt)))
        - (n - Real.sign n * (s.rotationSpeed * dt)) = 2 * Real.pi * k0 := by
      have : θ - s.currentRotation - n = 2 * Real.pi * k0 := by
        rw [hn, hk0]
        ring
      linarith [this]
    have habs : |n - Real.sign n * (s.rotationSpeed * dt)| = |n| - s.rotationSpeed * dt := by
      rcases lt_trichotomy n 0 with hneg | hzero | hpos
      · rw [Real.sign_of_neg hneg]
        rw [abs_of_neg hneg] at hbig ⊢
        rw [abs_of_neg (by linarith)]
        ring
      · exfalso
        rw [hzero, abs_zero] at hbig
        linarith
      · rw [Real.sign_of_pos hpos]
        rw [abs_of_pos hpos] at hbig ⊢
        rw [abs_of_pos (by linarith)]
        ring
    have hψle : |n - Real.sign n * (s.rotationSpeed * dt)| ≤ Real.pi := by
      rw [habs]
      have : |n| ≤ Real.pi := abs_le.mpr hmem
      linarith
    have he1 := normalizeRot_abs_eq k0 hsub hψle
    rw [he1, habs]
    refine ⟨by linarith, fun hc => absurd hc (not_le.mpr hbig), fun _ => rfl⟩
  · rw [if_neg hbig]
    push_neg at hbig
    rw [sub_self, normalizeRot_zero, abs_zero]
    exact ⟨abs_nonneg n, fun _ => rfl, fun hc => absurd hc (not_lt.mpr hbig)⟩

/-- A concrete moving state for the C8 witness: one waypoint ahead along the
x axis, heading 1 rad off target. -/
noncomputable def headingWitnessRobot : RobotState :=
  { position := ⟨0, 0, 0⟩, targetPosition := none, path := [⟨1, 0, 0⟩], moving := true,
    speed := 1, rotationSpeed := 5, currentRotation := 1, targetRotation := 0 }

/-- C8 witness: the heading-error bound applied to `headingWitnessRobot`
with Δt = 1/5. -/
theorem heading_error_non_increasing_witness :
    headingWitnessRobot.path = [⟨1, 0, 0⟩] ∧ headingWitnessRobot.moving = true ∧
    (0 : ℝ) < 1 / 5 ∧ 0 < headingWitnessRobot.rotationSpeed ∧
    (|normalizeRot ((robotUpdate (1 / 5) headingWitnessRobot).targetRotation
        - (robotUpdate (1 / 5) headingWitnessRobot).currentRotation)|
      ≤ |normalizeRot ((robotUpdate (1 / 5) headingWitnessRobot).targetRotation
        - headingWitnessRobot.currentRotation)|) :=
  ⟨rfl, rfl, by norm_num, by norm_num [headingWitnessRobot],
    (heading_error_non_increasing headingWitnessRobot (1 / 5) ⟨1, 0, 0⟩ [] rfl rfl
      (by norm_num) (by norm_num [headingWitnessRobot])).1⟩

/-! ### Termination of the motion controller (C7)

Per-segment quantities of a waypoint path, used to state the tick bound:
the planar distance and direction angle the tick body computes, summed
along the path. -/

/-- Planar distance from `pos` to waypoint `w`, exactly the `distance`
computed by a tick whose front waypoint is `w`. -/
noncomputable def segDist (pos w : Vec3) : ℝ :=
  Real.sqrt ((w.x - pos.x) * (w.x - pos.x) + (w.z - pos.z) * (w.z - pos.z))

/-- Direction angle from `pos` to waypoint `w`, exactly the `targetRotation`
computed by a tick whose front waypoint is `w`. -/
noncomputable def segAngle (pos w : Vec3) : ℝ :=
  atan2 (w.z - pos.z) (w.x - pos.x)

/-- Total planar length of a waypoint path from a starting position. -/
noncomputable def pathLength (pos : Vec3) : List Vec3 → ℝ
  | [] => 0
  | w :: rest => segDist pos w + pathLength w rest

/-- Total rotation needed along a path: the normalised initial alignment
plus the normalised heading change at each waypoint transition. -/
noncomputable def rotNeeded (cur : ℝ) (pos : Vec3) : List Vec3 → ℝ
  | [] => 0
  | w :: rest => |normalizeRot (segAngle pos w - cur)| + rotNeeded (segAngle pos w) w rest

/-- Total path length of a robot state's queued path. -/
noncomputable def totalPathLength (s : RobotState) : ℝ :=
  pathLength s.position s.path

/-- Total rotation needed for a robot state's queued path. -/
noncomputable def totalRotationNeeded (s : RobotState) : ℝ :=
  rotNeeded s.currentRotation s.position s.path

/-- The heading one tick computes (an abbreviation of the tick body's
`currentRotation` assignment, proved below to be what `robotUpdate`
stores). -/
noncomputable def rotAfter (s : RobotState) (dt : ℝ) (w : Vec3) : ℝ :=
  let n := normalizeRot (segAngle s.position w - s.currentRotation)
  if s.rotationSpeed * dt < |n| then
    s.currentRotation + Real.sign n * (s.rotationSpeed * dt)
  else segAngle s.position w

/-- Rotation-tick budget of a path: the first segment costs its alignment
error beyond the 0.1 tolerance, later segments their full heading change. -/
noncomputable def rotBoundTicks (denom cur : ℝ) (pos : Vec3) : List Vec3 → ℝ
  | [] => 0
  | w :: rest => max ((|normalizeRot (segAngle pos w - cur)| - 0.1) / denom) 0
      + rotNeeded (segAngle pos w) w rest / denom

/-! #### One-tick branch characterisations -/

theorem robotUpdate_far (s : RobotState) (dt : ℝ) (w : Vec3) (rest : List Vec3)
    (hpath : s.path = w :: rest) (hmov : s.moving = true)
    (hfar : ¬ |normalizeRot (segAngle s.position w - s.currentRotation)| < 0.1) :
    robotUpdate dt s = { s with currentRotation := rotAfter s dt w,
                                targetRotation := segAngle s.position w } := by
  simp only [robotUpdate, hpath, hmov, if_true]
  rw [show atan2 (w.z - s.position.z) (w.x - s.position.x) = segAngle s.position w from rfl]
  rw [if_neg hfar]
  rfl

theorem robotUpdate_move (s : RobotState) (dt : ℝ) (w : Vec3) (rest : List Vec3)
    (hpath : s.path = w :: rest) (hmov : s.moving = true)
    (halign : |normalizeRot (segAngle s.position w - s.currentRotation)| < 0.1)
    (hdist : ¬ segDist s.position w ≤ s.speed * dt) :
    robotUpdate dt s =
      { s with position := ⟨s.position.x + (w.x - s.position.x)
                              * ((s.speed * dt) / segDist s.position w),
                            s.position.y,
                            s.position.z + (w.z - s.position.z)
                              * ((s.speed * dt) / segDist s.position w)⟩,
               currentRotation := rotAfter s dt w,
               targetRotation := segAngle s.position w } := by
  simp only [robotUpdate, hpath, hmov, if_true]
  rw [show atan2 (w.z - s.position.z) (w.x - s.position.x) = segAngle s.position w from rfl]
  rw [show Real.sqrt ((w.x - s.position.x) * (w.x - s.position.x)
        + (w.z - s.position.z) * (w.z - s.position.z)) = segDist s.position w from rfl]
  rw [if_pos halign, if_neg hdist]
  rfl

theorem robotUpdate_snap (s : RobotState) (dt : ℝ) (w : Vec3) (rest : List Vec3)
    (hpath : s.path = w :: rest) (hmov : s.moving = true)
    (halign : |normalizeRot (segAngle s.position w - s.currentRotation)| < 0.1)
    (hdist : segDist s.position w ≤ s.speed * dt) :
    robotUpdate dt s =
      { s with position := w, path := rest,
               moving := if rest.isEmpty then false else true,
               currentRotation := rotAfter s dt w,
               targetRotation := segAngle s.position w } := by
  simp only [robotUpdate, hpath, hmov, if_true]
  rw [show atan2 (w.z - s.position.z) (w.x - s.position.x) = segAngle s.position w from rfl]
  rw [show Real.sqrt ((w.x - s.position.x) * (w.x - s.position.x)
        + (w.z - s.position.z) * (w.z - s.position.z)) = segDist s.position w from rfl]
  rw [if_pos halign, if_pos hdist]
  rfl

/-- The error left after one turn: reduced by exactly the rotation budget,
or snapped to zero when within it. -/
theorem rotAfter_error (s : RobotState) (dt : ℝ) (w : Vec3)
    (hstep : 0 < s.rotationSpeed * dt) :
    |normalizeRot (segAngle s.position w - rotAfter s dt w)| =
      if s.rotationSpeed * dt < |normalizeRot (segAngle s.position w - s.currentRotation)|
      then |normalizeRot (segAngle s.position w - s.currentRotation)| - s.rotationSpeed * dt
      else 0 := by
  set θ := segAngle s.position w with hθ
  set cur := s.currentRotation with hcur
  set n := normalizeRot (θ - cur) with hn
  obtain ⟨k0, hk0⟩ := normalizeRot_sub_int (θ - cur)
  have hmem := normalizeRot_mem (θ - cur)
  rw [rotAfter]
  simp only [← hθ, ← hcur, ← hn]
  by_cases hbig : s.rotationSpeed * dt < |n|
  · rw [if_pos hbig, if_pos hbig]
    have hsub : (θ - (cur + Real.sign n * (s.rotationSpeed * dt)))
        - (n - Real.sign n * (s.rotationSpeed * dt)) = 2 * Real.pi * k0 := by
      have h2 : θ - cur - n = 2 * Real.pi * k0 := by
        rw [hn, hk0]
        ring
      linarith
    have habs : |n - Real.sign n * (s.rotationSpeed * dt)| = |n| - s.rotationSpeed * dt := by
      rcases lt_trichotomy n 0 with hneg | hzero | hpos
      · rw [Real.sign_of_neg hneg]
        rw [abs_of_neg hneg] at hbig ⊢
        rw [abs_of_neg (by linarith)]
        ring
      · exfalso
        rw [hzero, abs_zero] at hbig
        linarith
      · rw [Real.sign_of_pos hpos]
        rw [abs_of_pos hpos] at hbig ⊢
        rw [abs_of_pos (by linarith)]
        ring
    have hψle : |n - Real.sign n * (s.rotationSpeed * dt)| ≤ Real.pi := by
      rw [habs]
      have h3 : |n| ≤ Real.pi := by
        rw [hn]
        exact abs_le.mpr hmem
      linarith
    rw [normalizeRot_abs_eq k0 hsub hψle, habs]
  · rw [if_neg hbig, if_neg hbig, sub_self, normalizeRot_zero, abs_zero]

/-- Circle-metric triangle inequality for the normalisation. -/
theorem normalizeRot_abs_add_le (a b : ℝ) :
    |normalizeRot (a + b)| ≤ |normalizeRot a| + |normalizeRot b| := by
  obtain ⟨ka, hka⟩ := normalizeRot_sub_int a
  obtain ⟨kb, hkb⟩ := normalizeRot_sub_int b
  have hpi : 0 < Real.pi := Real.pi_pos
  by_cases hle : |normalizeRot a + normalizeRot b| ≤ Real.pi
  · have hsub : (a + b) - (normalizeRot a + normalizeRot b)
        = 2 * Real.pi * ((ka : ℝ) + (kb : ℝ)) := by
      rw [hka, hkb]
      ring
    rw [normalizeRot_abs_eq (ka + kb) (by push_cast; linarith) hle]
    exact abs_add _ _
  · push_neg at hle
    have h1 : |normalizeRot (a + b)| ≤ Real.pi :=
      abs_le.mpr (normalizeRot_mem (a + b))
    have h3 := abs_add (normalizeRot a) (normalizeRot b)
    linarith

/-! #### Straight-line movement facts -/

theorem sqrt_scaled (r a b : ℝ) :
    Real.sqrt ((r * a) * (r * a) + (r * b) * (r * b)) = |r| * Real.sqrt (a * a + b * b) := by
  have h : (r * a) * (r * a) + (r * b) * (r * b) = r ^ 2 * (a * a + b * b) := by ring
  rw [h, Real.sqrt_mul (sq_nonneg r), Real.sqrt_sq_eq_abs]

theorem atan2_scaled (r b a : ℝ) (hr : 0 < r) :
    atan2 (r * b) (r * a) = atan2 b a := by
  unfold atan2
  have h : (⟨r * a, r * b⟩ : ℂ) = (r : ℂ) * ⟨a, b⟩ := by
    apply Complex.ext
    · simp [Complex.mul_re]
    · simp [Complex.mul_im]
  rw [h, Complex.arg_real_mul _ hr]

theorem segDist_nonneg (pos w : Vec3) : 0 ≤ segDist pos w :=
  Real.sqrt_nonneg _

/-- One non-snapping movement tick shortens the remaining distance by
exactly one step. -/
theorem segDist_move (p w : Vec3) (step : ℝ) (hstep : 0 < step)
    (h : step < segDist p w) :
    segDist ⟨p.x + (w.x - p.x) * (step / segDist p w), p.y,
             p.z + (w.z - p.z) * (step / segDist p w)⟩ w
      = segDist p w - step := by
  set d := segDist p w with hd
  have hdpos : 0 < d := lt_trans hstep h
  have hx : w.x - (p.x + (w.x - p.x) * (step / d)) = ((d - step) / d) * (w.x - p.x) := by
    field_simp
    ring
  have hz : w.z - (p.z + (w.z - p.z) * (step / d)) = ((d - step) / d) * (w.z - p.z) := by
    field_simp
    ring
  show Real.sqrt _ = d - step
  rw [show (w.x - (p.x + (w.x - p.x) * (step / d))) * (w.x - (p.x + (w.x - p.x) * (step / d)))
        + (w.z - (p.z + (w.z - p.z) * (step / d))) * (w.z - (p.z + (w.z - p.z) * (step / d)))
      = (((d - step) / d) * (w.x - p.x)) * (((d - step) / d) * (w.x - p.x))
        + (((d - step) / d) * (w.z - p.z)) * (((d - step) / d) * (w.z - p.z)) by rw [hx, hz]]
  rw [sqrt_scaled]
  rw [show Real.sqrt ((w.x - p.x) * (w.x - p.x) + (w.z - p.z) * (w.z - p.z)) = d from rfl]
  rw [abs_of_pos (div_pos (by linarith) hdpos)]
  field_simp

/-- One non-snapping movement tick keeps the direction to the waypoint. -/
theorem segAngle_move (p w : Vec3) (step : ℝ) (hstep : 0 < step)
    (h : step < segDist p w) :
    segAngle ⟨p.x + (w.x - p.x) * (step / segDist p w), p.y,
              p.z + (w.z - p.z) * (step / segDist p w)⟩ w
      = segAngle p w := by
  set d := segDist p w with hd
  have hdpos : 0 < d := lt_trans hstep h
  have hx : w.x - (p.x + (w.x - p.x) * (step / d)) = ((d - step) / d) * (w.x - p.x) := by
    field_simp
    ring
  have hz : w.z - (p.z + (w.z - p.z) * (step / d)) = ((d - step) / d) * (w.z - p.z) := by
    field_simp
    ring
  show atan2 _ _ = atan2 _ _
  rw [show (w.z - (p.z + (w.z - p.z) * (step / d))) = ((d - step) / d) * (w.z - p.z) from hz,
      show (w.x - (p.x + (w.x - p.x) * (step / d))) = ((d - step) / d) * (w.x - p.x) from hx]
  exact atan2_scaled _ _ _ (div_pos (by linarith) hdpos)

/-! #### Rotation and movement phases of one segment -/

/-- Rotation phase: while the alignment tolerance is unmet the tick only
turns; once `m` covers the error beyond the tolerance, within `m` ticks only
the heading fields have changed and alignment holds. -/
theorem rotation_phase (w : Vec3) (rest : List Vec3) (dt : ℝ) :
    ∀ (m : ℕ) (s : RobotState), s.path = w :: rest → s.moving = true →
      0 < dt → 0 < s.rotationSpeed →
      |normalizeRot (segAngle s.position w - s.currentRotation)|
        < 0.1 + m * (s.rotationSpeed * dt) →
      ∃ (j : ℕ) (c t : ℝ), j ≤ m ∧
        (robotUpdate dt)^[j] s = { s with currentRotation := c, targetRotation := t } ∧
        |normalizeRot (segAngle s.position w - c)| < 0.1 := by
  intro m
  induction m with
  | zero =>
    intro s hpath hmov hdt hrot he
    refine ⟨0, s.currentRotation, s.targetRotation, le_refl 0, rfl, ?_⟩
    simpa using he
  | succ m ih =>
    intro s hpath hmov hdt hrot he
    by_cases hnear : |normalizeRot (segAngle s.position w - s.currentRotation)| < 0.1
    · exact ⟨0, s.currentRotation, s.targetRotation, Nat.zero_le _, rfl, hnear⟩
    · have hstep : 0 < s.rotationSpeed * dt := mul_pos hrot hdt
      have herr : |normalizeRot (segAngle s.position w - rotAfter s dt w)|
          < 0.1 + m * (s.rotationSpeed * dt) := by
        rw [rotAfter_error s dt w hstep]
        split
        · rename_i hb
          push_cast at he
          linarith
        · have hm : 0 ≤ (m : ℝ) * (s.rotationSpeed * dt) :=
            mul_nonneg (Nat.cast_nonneg m) (le_of_lt hstep)
          linarith
      obtain ⟨j, c, t, hj, hiter, hc⟩ := ih
        { s with currentRotation := rotAfter s dt w, targetRotation := segAngle s.position w }
        hpath hmov hdt hrot herr
      refine ⟨j + 1, c, t, Nat.succ_le_succ hj, ?_, hc⟩
      rw [Function.iterate_succ_apply, robotUpdate_far s dt w rest hpath hmov hnear]
      exact hiter

/-- Movement phase: with alignment held, each tick either snaps onto the
waypoint (popping it) or advances one full step toward it, so `m + 1` steps
of distance budget complete the segment in at most `m + 1` ticks, ending
exactly on the waypoint with the tail path and alignment preserved. -/
theorem movement_phase (w : Vec3) (rest : List Vec3) (dt : ℝ) :
    ∀ (m : ℕ) (s : RobotState), s.path = w :: rest → s.moving = true →
      0 < dt → 0 < s.speed → 0 < s.rotationSpeed →
      |normalizeRot (segAngle s.position w - s.currentRotation)| < 0.1 →
      segDist s.position w ≤ (m + 1) * (s.speed * dt) →
      ∃ (j : ℕ) (c t : ℝ), j ≤ m + 1 ∧
        (robotUpdate dt)^[j] s
          = { s with position := w, path := rest,
                     moving := if rest.isEmpty then false else true,
                     currentRotation := c, targetRotation := t } ∧
        |normalizeRot (segAngle s.position w - c)| < 0.1 := by
  intro m
  induction m with
  | zero =>
    intro s hpath hmov hdt hsp hrot halign hdist
    have hstep : 0 < s.rotationSpeed * dt := mul_pos hrot hdt
    have hdist1 : segDist s.position w ≤ s.speed * dt := by
      push_cast at hdist
      linarith
    refine ⟨1, rotAfter s dt w, segAngle s.position w, le_refl 1, ?_, ?_⟩
    · rw [Function.iterate_one]
      exact robotUpdate_snap s dt w rest hpath hmov halign hdist1
    · rw [rotAfter_error s dt w hstep]
      split
      · rename_i hb
        linarith
      · norm_num
  | succ m ih =>
    intro s hpath hmov hdt hsp hrot halign hdist
    have hstep : 0 < s.rotationSpeed * dt := mul_pos hrot hdt
    have hspd : 0 < s.speed * dt := mul_pos hsp hdt
    by_cases hsnap : segDist s.position w ≤ s.speed * dt
    · refine ⟨1, rotAfter s dt w, segAngle s.position w, by omega, ?_, ?_⟩
      · rw [Function.iterate_one]
        exact robotUpdate_snap s dt w rest hpath hmov halign hsnap
      · rw [rotAfter_error s dt w hstep]
        split
        · rename_i hb
          linarith
        · norm_num
    · push_neg at hsnap
      obtain ⟨p1, hp1⟩ : ∃ p1 : Vec3,
          p1 = ⟨s.position.x + (w.x - s.position.x) * ((s.speed * dt) / segDist s.position w),
                s.position.y,
                s.position.z + (w.z - s.position.z) * ((s.speed * dt) / segDist s.position w)⟩ :=
        ⟨_, rfl⟩
      have hmove : robotUpdate dt s
          = { s with position := p1, currentRotation := rotAfter s dt w,
                     targetRotation := segAngle s.position w } := by
        rw [hp1]
        exact robotUpdate_move s dt w rest hpath hmov halign (not_le.mpr hsnap)
      have hdistEq : segDist p1 w = segDist s.position w - s.speed * dt := by
        rw [hp1]
        exact segDist_move s.position w (s.speed * dt) hspd hsnap
      have hangleEq : segAngle p1 w = segAngle s.position w := by
        rw [hp1]
        exact segAngle_move s.position w (s.speed * dt) hspd hsnap
      have herr2 : |normalizeRot (segAngle s.position w - rotAfter s dt w)| < 0.1 := by
        rw [rotAfter_error s dt w hstep]
        split
        · rename_i hb
          linarith
        · norm_num
      obtain ⟨j, c, t, hj, hiter, hc⟩ := ih
        { s with position := p1, currentRotation := rotAfter s dt w,
                 targetRotation := segAngle s.position w }
        hpath hmov hdt hsp hrot
        (by
          show |normalizeRot (segAngle p1 w - rotAfter s dt w)| < 0.1
          rw [hangleEq]
          exact herr2)
        (by
          show segDist p1 w ≤ ((m : ℝ) + 1) * (s.speed * dt)
          rw [hdistEq]
          push_cast at hdist
          linarith)
      refine ⟨j + 1, c, t, by omega, ?_, ?_⟩
      · rw [Function.iterate_succ_apply, hmove]
        exact hiter
      · show |normalizeRot (segAngle s.position w - c)| < 0.1
        rw [← hangleEq]
        exact hc

/-- One full segment: a rotation phase bounded by the initial error beyond
the tolerance, then a movement phase bounded by the distance, each rounded
up to whole ticks. -/
theorem segment_phase (w : Vec3) (rest : List Vec3) (s : RobotState) (dt : ℝ)
    (hpath : s.path = w :: rest) (hmov : s.moving = true)
    (hdt : 0 < dt) (hsp : 0 < s.speed) (hrot : 0 < s.rotationSpeed) :
    ∃ (j : ℕ) (c t : ℝ),
      (j : ℝ) ≤ (max ((|normalizeRot (segAngle s.position w - s.currentRotation)| - 0.1)
            / (s.rotationSpeed * dt)) 0 + 1)
          + (segDist s.position w / (s.speed * dt) + 1) ∧
      (robotUpdate dt)^[j] s
        = { s with position := w, path := rest,
                   moving := if rest.isEmpty then false else true,
                   currentRotation := c, targetRotation := t } ∧
      |normalizeRot (segAngle s.position w - c)| < 0.1 := by
  have hstep : 0 < s.rotationSpeed * dt := mul_pos hrot hdt
  have hspd : 0 < s.speed * dt := mul_pos hsp hdt
  have habs : 0 ≤ |normalizeRot (segAngle s.position w - s.currentRotation)| := abs_nonneg _
  obtain ⟨mA, hmA1, hmA2⟩ : ∃ mA : ℕ,
      |normalizeRot (segAngle s.position w - s.currentRotation)|
        < 0.1 + mA * (s.rotationSpeed * dt) ∧
      (mA : ℝ) ≤ max ((|normalizeRot (segAngle s.position w - s.currentRotation)| - 0.1)
          / (s.rotationSpeed * dt)) 0 + 1 := by
    by_cases hnear : |normalizeRot (segAngle s.position w - s.currentRotation)| < 0.1
    · refine ⟨0, by simpa using hnear, ?_⟩
      have : (0 : ℝ) ≤ max ((|normalizeRot (segAngle s.position w - s.currentRotation)| - 0.1)
          / (s.rotationSpeed * dt)) 0 := le_max_right _ _
      push_cast
      linarith
    · push_neg at hnear
      set q := (|normalizeRot (segAngle s.position w - s.currentRotation)| - 0.1)
          / (s.rotationSpeed * dt) with hq
      have hq0 : 0 ≤ q := div_nonneg (by linarith) (le_of_lt hstep)
      have hqmul : q * (s.rotationSpeed * dt)
          = |normalizeRot (segAngle s.position w - s.currentRotation)| - 0.1 := by
        rw [hq]
        field_simp
      refine ⟨⌊q⌋₊ + 1, ?_, ?_⟩
      · have hlt : q < (⌊q⌋₊ : ℝ) + 1 := Nat.lt_floor_add_one q
        have key : q * (s.rotationSpeed * dt) < ((⌊q⌋₊ : ℝ) + 1) * (s.rotationSpeed * dt) :=
          mul_lt_mul_of_pos_right hlt hstep
        push_cast
        linarith
      · have hle : (⌊q⌋₊ : ℝ) ≤ q := Nat.floor_le hq0
        have hmax : q ≤ max q 0 := le_max_left _ _
        push_cast
        linarith
  obtain ⟨mB, hmB1, hmB2⟩ : ∃ mB : ℕ,
      segDist s.position w ≤ (mB + 1) * (s.speed * dt) ∧
      (mB : ℝ) ≤ segDist s.position w / (s.speed * dt) := by
    set q := segDist s.position w / (s.speed * dt) with hq
    have hq0 : 0 ≤ q := div_nonneg (segDist_nonneg _ _) (le_of_lt hspd)
    have hqmul : q * (s.speed * dt) = segDist s.position w := by
      rw [hq]
      field_simp
    refine ⟨⌊q⌋₊, ?_, Nat.floor_le hq0⟩
    have hlt : q < (⌊q⌋₊ : ℝ) + 1 := Nat.lt_floor_add_one q
    have key : q * (s.speed * dt) < ((⌊q⌋₊ : ℝ) + 1) * (s.speed * dt) :=
      mul_lt_mul_of_pos_right hlt hspd
    linarith
  obtain ⟨jA, cA, tA, hjA, hiterA, hcA⟩ :=
    rotation_phase w rest dt mA s hpath hmov hdt hrot hmA1
  obtain ⟨jB, c, t, hjB, hiterB, hcB⟩ :=
    movement_phase w rest dt mB
      { s with currentRotation := cA, targetRotation := tA }
      hpath hmov hdt hsp hrot hcA hmB1
  refine ⟨jB + jA, c, t, ?_, ?_, hcB⟩
  · have h1 : (jA : ℝ) ≤ mA := Nat.cast_le.mpr hjA
    have h2 : (jB : ℝ) ≤ (mB : ℝ) + 1 := by
      have h3 : (jB : ℝ) ≤ ((mB + 1 : ℕ) : ℝ) := Nat.cast_le.mpr hjB
      push_cast at h3
      linarith
    push_cast
    linarith
  · rw [Function.iterate_add_apply, hiterA]
    exact hiterB

/-- The rotation-tick budget of a path is below the claimed
`rotation needed / (rotationSpeed·Δt)` quantity. -/
theorem rotBoundTicks_le (denom : ℝ) (hden : 0 < denom) (cur : ℝ) (pos : Vec3) :
    ∀ path : List Vec3, rotBoundTicks denom cur pos path ≤ rotNeeded cur pos path / denom := by
  intro path
  cases path with
  | nil => simp [rotBoundTicks, rotNeeded]
  | cons w rest =>
    simp only [rotBoundTicks, rotNeeded]
    rw [add_div]
    have habs : 0 ≤ |normalizeRot (segAngle pos w - cur)| := abs_nonneg _
    have h1 : (|normalizeRot (segAngle pos w - cur)| - 0.1) / denom
        ≤ |normalizeRot (segAngle pos w - cur)| / denom :=
      (div_le_div_iff_of_pos_right hden).mpr (by linarith)
    have h2 : (0 : ℝ) ≤ |normalizeRot (segAngle pos w - cur)| / denom :=
      div_nonneg habs (le_of_lt hden)
    have h3 := max_le h1 h2
    linarith

/-- The whole path: chaining segments, with the rotation budget of each
later segment bounded through the triangle inequality by the heading change
at its waypoint plus the sub-tolerance residue of the previous segment. -/
theorem path_phase (dt : ℝ) :
    ∀ (path : List Vec3) (s : RobotState), s.path = path → s.moving = true →
      0 < dt → 0 < s.speed → 0 < s.rotationSpeed → path ≠ [] →
      ∃ j : ℕ, (j : ℝ) ≤ pathLength s.position path / (s.speed * dt)
            + rotBoundTicks (s.rotationSpeed * dt) s.currentRotation s.position path
            + 2 * path.length ∧
        ((robotUpdate dt)^[j] s).path = [] ∧ ((robotUpdate dt)^[j] s).moving = false := by
  intro path
  induction path with
  | nil =>
    intro s _ _ _ _ _ hne
    exact absurd rfl hne
  | cons w rest ih =>
    intro s hpath hmov hdt hsp hrot _
    have hstep : 0 < s.rotationSpeed * dt := mul_pos hrot hdt
    have hspd : 0 < s.speed * dt := mul_pos hsp hdt
    obtain ⟨j1, c, t, hb1, hiter1, hc⟩ := segment_phase w rest s dt hpath hmov hdt hsp hrot
    cases rest with
    | nil =>
      refine ⟨j1, ?_, ?_, ?_⟩
      · simp only [pathLength, rotBoundTicks, rotNeeded, List.length_cons, List.length_nil,
          add_zero, zero_div, zero_add] at hb1 ⊢
        push_cast
        linarith
      · rw [hiter1]
      · rw [hiter1]
        rfl
    | cons w2 rest2 =>
      have hne2 : (w2 :: rest2 : List Vec3) ≠ [] := by simp
      obtain ⟨j2, hb2, hp2, hm2⟩ := ih
        { s with position := w, path := w2 :: rest2,
                 moving := if (w2 :: rest2 : List Vec3).isEmpty then false else true,
                 currentRotation := c, targetRotation := t }
        rfl rfl hdt hsp hrot hne2
      refine ⟨j2 + j1, ?_, ?_, ?_⟩
      · have htri := normalizeRot_abs_add_le (segAngle w w2 - segAngle s.position w)
          (segAngle s.position w - c)
        rw [show segAngle w w2 - segAngle s.position w + (segAngle s.position w - c)
            = segAngle w w2 - c by ring] at htri
        have hkey : max ((|normalizeRot (segAngle w w2 - c)| - 0.1)
              / (s.rotationSpeed * dt)) 0
            ≤ |normalizeRot (segAngle w w2 - segAngle s.position w)|
              / (s.rotationSpeed * dt) := by
          apply max_le
          · exact (div_le_div_iff_of_pos_right hstep).mpr (by linarith)
          · exact div_nonneg (abs_nonneg _) (le_of_lt hstep)
        simp only [pathLength, rotBoundTicks, rotNeeded, List.length_cons] at hb2 ⊢
        rw [add_div, add_div, add_div]
        rw [add_div] at hb2
        push_cast at hb2 ⊢
        linarith
      · rw [Function.iterate_add_apply, hiter1]
        exact hp2
      · rw [Function.iterate_add_apply, hiter1]
        exact hm2

/-- C7 (amended): from every moving state with a nonempty waypoint path and
Δt > 0, iterated ticks empty the path and clear `moving` within
`(total path length / speed + total rotation needed / rotationSpeed) / Δt`
ticks plus two extra ticks per waypoint (each waypoint's rotation and
movement phases each round up to a whole tick). -/
theorem robot_terminates_with_rounded_bound (s : RobotState) (dt : ℝ)
    (hpath : s.path ≠ []) (hmov : s.moving = true) (hdt : 0 < dt)
    (hsp : 0 < s.speed) (hrot : 0 < s.rotationSpeed) :
    ∃ j : ℕ,
      (j : ℝ) ≤ (totalPathLength s / s.speed + totalRotationNeeded s / s.rotationSpeed) / dt
          + 2 * s.path.length ∧
      ((robotUpdate dt)^[j] s).path = [] ∧ ((robotUpdate dt)^[j] s).moving = false := by
  obtain ⟨j, hb, h1, h2⟩ := path_phase dt s.path s rfl hmov hdt hsp hrot hpath
  refine ⟨j, ?_, h1, h2⟩
  have hstep : 0 < s.rotationSpeed * dt := mul_pos hrot hdt
  have hrle := rotBoundTicks_le (s.rotationSpeed * dt) hstep s.currentRotation s.position s.path
  have heq1 : totalPathLength s / s.speed / dt
      = pathLength s.position s.path / (s.speed * dt) := by
    rw [div_div, totalPathLength]
  have heq2 : totalRotationNeeded s / s.rotationSpeed / dt
      = rotNeeded s.currentRotation s.position s.path / (s.rotationSpeed * dt) := by
    rw [div_div, totalRotationNeeded]
  rw [add_div, heq1, heq2]
  linarith

/-- `Math.atan2(0, x)` is 0 for a nonnegative x coordinate. -/
theorem atan2_zero_of_nonneg (x : ℝ) (hx : 0 ≤ x) : atan2 0 x = 0 := by
  unfold atan2
  have h : (⟨x, 0⟩ : ℂ) = (x : ℂ) := Complex.ext rfl rfl
  rw [h]
  exact Complex.arg_ofReal_of_nonneg hx

/-- A moving robot whose single waypoint coincides with its own position:
path length 0, rotation needed 0, yet one tick is still required. -/
noncomputable def degenerateCexRobot : RobotState :=
  { position := ⟨0, 0, 0⟩, targetPosition := none, path := [⟨0, 0, 0⟩], moving := true,
    speed := 1, rotationSpeed := 5, currentRotation := 0, targetRotation := 0 }

theorem degenerateCexRobot_segDist :
    segDist degenerateCexRobot.position ⟨0, 0, 0⟩ = 0 := by
  show Real.sqrt ((0 - 0) * (0 - 0) + (0 - 0) * (0 - 0)) = 0
  norm_num

theorem degenerateCexRobot_segAngle :
    segAngle degenerateCexRobot.position ⟨0, 0, 0⟩ = 0 := by
  show atan2 (0 - 0) (0 - 0) = 0
  rw [show ((0 : ℝ) - 0) = 0 by norm_num]
  exact atan2_zero_of_nonneg 0 le_rfl

/-- C7 counterexample: for the robot `degenerateCexRobot` (moving, nonempty
path, Δt = 1 > 0) the claimed tick bound
`(total path length / speed + total rotation needed / rotationSpeed) / Δt`
evaluates to 0, yet after 0 ticks the path is still nonempty — the path
only empties on the following tick. The claimed bound misses the rounding
of each phase up to whole ticks. -/
theorem robot_tick_bound_fails :
    (totalPathLength degenerateCexRobot / degenerateCexRobot.speed
      + totalRotationNeeded degenerateCexRobot / degenerateCexRobot.rotationSpeed) / 1 = 0 ∧
    degenerateCexRobot.moving = true ∧
    ((robotUpdate 1)^[0] degenerateCexRobot).path = [⟨0, 0, 0⟩] ∧
    (robotUpdate 1 degenerateCexRobot).path = [] := by
  have hL : totalPathLength degenerateCexRobot = 0 := by
    show segDist degenerateCexRobot.position ⟨0, 0, 0⟩ + 0 = 0
    rw [degenerateCexRobot_segDist]
    norm_num
  have hR : totalRotationNeeded degenerateCexRobot = 0 := by
    show |normalizeRot (segAngle degenerateCexRobot.position ⟨0, 0, 0⟩ - 0)| + 0 = 0
    rw [degenerateCexRobot_segAngle]
    rw [show ((0 : ℝ) - 0) = 0 by norm_num, normalizeRot_zero]
    norm_num
  have halign : |normalizeRot (segAngle degenerateCexRobot.position (⟨0, 0, 0⟩ : Vec3)
      - degenerateCexRobot.currentRotation)| < 0.1 := by
    rw [degenerateCexRobot_segAngle]
    show |normalizeRot ((0 : ℝ) - 0)| < 0.1
    rw [show ((0 : ℝ) - 0) = 0 by norm_num, normalizeRot_zero]
    norm_num
  have hdist : segDist degenerateCexRobot.position (⟨0, 0, 0⟩ : Vec3)
      ≤ degenerateCexRobot.speed * 1 := by
    rw [degenerateCexRobot_segDist]
    show (0 : ℝ) ≤ 1 * 1
    norm_num
  refine ⟨?_, rfl, rfl, ?_⟩
  · rw [hL, hR]
    norm_num
  · rw [robotUpdate_snap degenerateCexRobot 1 ⟨0, 0, 0⟩ [] rfl rfl halign hdist]

/-- C7 witness: the rounded bound applied to `degenerateCexRobot` with
Δt = 1. -/
theorem robot_terminates_with_rounded_bound_witness :
    degenerateCexRobot.path ≠ [] ∧ degenerateCexRobot.moving = true ∧
    (0 : ℝ) < 1 ∧ 0 < degenerateCexRobot.speed ∧ 0 < degenerateCexRobot.rotationSpeed ∧
    (∃ j : ℕ,
      (j : ℝ) ≤ (totalPathLength degenerateCexRobot / degenerateCexRobot.speed
          + totalRotationNeeded degenerateCexRobot / degenerateCexRobot.rotationSpeed) / 1
          + 2 * degenerateCexRobot.path.length ∧
      ((robotUpdate 1)^[j] degenerateCexRobot).path = []
        ∧ ((robotUpdate 1)^[j] degenerateCexRobot).moving = false) :=
  ⟨by simp [degenerateCexRobot], rfl, by norm_num, by norm_num [degenerateCexRobot],
    by norm_num [degenerateCexRobot],
    robot_terminates_with_rounded_bound degenerateCexRobot 1
      (by simp [degenerateCexRobot]) rfl (by norm_num)
      (by norm_num [degenerateCexRobot]) (by norm_num [degenerateCexRobot])⟩

/-! ### Optimality of the planner on an obstacle-free grid (C2)

On `freeGrid n` every cell value is 0, so a cell is traversable iff it is in
bounds. With the same y on both endpoints, the stored heuristic is the exact
remaining distance, which makes every popped node's cost exact; the claim
follows from the classic A* invariants specialised to this situation. -/

theorem heuristic_nonneg (a b : Pt) : 0 ≤ heuristic a b := by
  simp only [heuristic, Int.abs_eq_natAbs]
  omega

theorem heuristic_self (a : Pt) : heuristic a a = 0 := by
  simp only [heuristic, Int.abs_eq_natAbs]
  omega

theorem heuristic_triangle (a b c : Pt) :
    heuristic a c ≤ heuristic a b + heuristic b c := by
  simp only [heuristic, Int.abs_eq_natAbs]
  omega

theorem heuristic_eq_zero {a b : Pt} (h : heuristic a b = 0) : a = b := by
  simp only [heuristic, Int.abs_eq_natAbs] at h
  have hx : a.x = b.x := by omega
  have hy : a.y = b.y := by omega
  have hz : a.z = b.z := by omega
  cases a
  cases b
  simp_all

theorem getD_replicate {α : Type _} :
    ∀ (n i : ℕ) (a d : α),
      (List.replicate n a).getD i d = a ∨ (List.replicate n a).getD i d = d := by
  intro n
  induction n with
  | zero =>
    intro i a d
    right
    cases i <;> rfl
  | succ n ih =>
    intro i a d
    cases i with
    | zero => left; rfl
    | succ i => exact ih i a d

/-- Every access of the obstacle-free grid reads 0. -/
theorem gridAt_freeGrid (n : ℕ) (x y z : Int) : gridAt (freeGrid n) x y z = 0 := by
  unfold gridAt freeGrid
  rcases getD_replicate n x.toNat (List.replicate n (List.replicate n (0 : Int))) [] with h | h <;>
    rw [h]
  · rcases getD_replicate n y.toNat (List.replicate n (0 : Int)) [] with h2 | h2 <;> rw [h2]
    · rcases getD_replicate n z.toNat (0 : Int) 0 with h3 | h3 <;> rw [h3]
    · rfl
  · rfl

theorem freeGrid_length (n : ℕ) : (freeGrid n).length = n :=
  List.length_replicate n _

/-- The next cell of a shortest path from `c` toward `e` (same y, distinct),
moving along the first axis where they differ. -/
def stepToward (c e : Pt) : Pt :=
  if c.x < e.x then ⟨c.x + 1, c.y, c.z⟩
  else if e.x < c.x then ⟨c.x - 1, c.y, c.z⟩
  else if c.z < e.z then ⟨c.x, c.y, c.z + 1⟩
  else ⟨c.x, c.y, c.z - 1⟩

/-- Any planner neighbour is at Manhattan distance 1 (and shares y). -/
theorem heuristic_of_mem_getNeighbors {grid : Grid} {c : Pt} {p : Pt}
    (hp : p ∈ getNeighbors grid c.x c.y c.z) : heuristic c p = 1 := by
  simp only [getNeighbors, directions, List.mem_filterMap, List.mem_cons,
    List.not_mem_nil, or_false] at hp
  obtain ⟨d, hd, hsome⟩ := hp
  split at hsome
  · simp only [Option.some.injEq] at hsome
    subst hsome
    rcases hd with h | h | h | h <;> subst h <;>
      · simp only [heuristic, Int.abs_eq_natAbs]
        omega
  · simp at hsome

/-- On the free grid, in-bounds axis steps are exactly the neighbours. -/
theorem mem_getNeighbors_freeGrid {n : ℕ} {c p : Pt}
    (hinb : inBoundsI (freeGrid n) p.x p.y p.z)
    (hoff : p = ⟨c.x + 1, c.y, c.z⟩ ∨ p = ⟨c.x - 1, c.y, c.z⟩ ∨
            p = ⟨c.x, c.y, c.z + 1⟩ ∨ p = ⟨c.x, c.y, c.z - 1⟩) :
    p ∈ getNeighbors (freeGrid n) c.x c.y c.z := by
  simp only [getNeighbors, directions, List.mem_filterMap, List.mem_cons,
    List.not_mem_nil, or_false]
  have hfree : ∀ x y z : Int, gridAt (freeGrid n) x y z ≠ 1 := by
    intro x y z
    rw [gridAt_freeGrid]
    norm_num
  rcases hoff with h | h | h | h
  · refine ⟨(1, 0, 0), by simp, ?_⟩
    rw [if_pos ⟨by subst h; simpa using hinb, hfree _ _ _⟩]
    subst h
    simp only [Option.some.injEq, Pt.mk.injEq]
    refine ⟨?_, ?_, ?_⟩ <;> first | trivial | omega
  · refine ⟨(-1, 0, 0), by simp, ?_⟩
    rw [if_pos ⟨by subst h; simpa using hinb, hfree _ _ _⟩]
    subst h
    simp only [Option.some.injEq, Pt.mk.injEq]
    refine ⟨?_, ?_, ?_⟩ <;> first | trivial | omega
  · refine ⟨(0, 0, 1), by simp, ?_⟩
    rw [if_pos ⟨by subst h; simpa using hinb, hfree _ _ _⟩]
    subst h
    simp only [Option.some.injEq, Pt.mk.injEq]
    refine ⟨?_, ?_, ?_⟩ <;> first | trivial | omega
  · refine ⟨(0, 0, -1), by simp, ?_⟩
    rw [if_pos ⟨by subst h; simpa using hinb, hfree _ _ _⟩]
    subst h
    simp only [Option.some.injEq, Pt.mk.injEq]
    refine ⟨?_, ?_, ?_⟩ <;> first | trivial | omega

/-- Stepping toward the goal from a distinct same-y cell: the step is a
neighbour cell, one closer to the goal and one further from anywhere the
current cell lies on a shortest path from. -/
theorem stepToward_facts {n : ℕ} {c e : Pt}
    (hcb : inBoundsI (freeGrid n) c.x c.y c.z)
    (heb : inBoundsI (freeGrid n) e.x e.y e.z)
    (hne : c ≠ e) (hy2 : c.y = e.y) :
    stepToward c e ∈ getNeighbors (freeGrid n) c.x c.y c.z ∧
    heuristic (stepToward c e) e = heuristic c e - 1 ∧
    heuristic c (stepToward c e) = 1 := by
  have hlen := freeGrid_length n
  have hne2 : c.x ≠ e.x ∨ c.z ≠ e.z := by
    by_contra hcon
    push_neg at hcon
    apply hne
    cases c
    cases e
    simp_all
  unfold inBoundsI at hcb heb
  rw [hlen] at hcb heb
  unfold stepToward
  split
  case isTrue hx =>
    refine ⟨mem_getNeighbors_freeGrid ?_ (Or.inl rfl), ?_, ?_⟩
    · unfold inBoundsI
      rw [hlen]
      simp only
      omega
    · simp only [heuristic, Int.abs_eq_natAbs]
      omega
    · simp only [heuristic, Int.abs_eq_natAbs]
      omega
  case isFalse hx =>
    split
    case isTrue hx2 =>
      refine ⟨mem_getNeighbors_freeGrid ?_ (Or.inr (Or.inl rfl)), ?_, ?_⟩
      · unfold inBoundsI
        rw [hlen]
        simp only
        omega
      · simp only [heuristic, Int.abs_eq_natAbs]
        omega
      · simp only [heuristic, Int.abs_eq_natAbs]
        omega
    case isFalse hx2 =>
      have hxeq : c.x = e.x := by omega
      have hzne : c.z ≠ e.z := by tauto
      split
      case isTrue hz =>
        refine ⟨mem_getNeighbors_freeGrid ?_ (Or.inr (Or.inr (Or.inl rfl))), ?_, ?_⟩
        · unfold inBoundsI
          rw [hlen]
          simp only
          omega
        · simp only [heuristic, Int.abs_eq_natAbs]
          omega
        · simp only [heuristic, Int.abs_eq_natAbs]
          omega
      case isFalse hz =>
        have hz2 : e.z < c.z := by omega
        refine ⟨mem_getNeighbors_freeGrid ?_ (Or.inr (Or.inr (Or.inr rfl))), ?_, ?_⟩
        · unfold inBoundsI
          rw [hlen]
          simp only
          omega
        · simp only [heuristic, Int.abs_eq_natAbs]
          omega
        · simp only [heuristic, Int.abs_eq_natAbs]
          omega

/-- The per-node invariant of the open list: stored heuristic and total cost
are consistent, the cost-from-start dominates the true distance, the parent
chain has length `g`, and the coordinate is in bounds. -/
def NodeOK (N : ℕ) (s e : Pt) (n : ANode) : Prop :=
  n.h = heuristic n.pt e ∧ n.f = n.g + n.h ∧ heuristic s n.pt ≤ n.g ∧
  (reconstructPath n).length = n.g.toNat ∧ 0 ≤ n.g ∧
  inBoundsI (freeGrid N) n.pt.x n.pt.y n.pt.z

theorem relaxFirst_map_pt (c : Pt) (gS : Int) (par : ANode) :
    ∀ l : List ANode, (relaxFirst c gS par l).map ANode.pt = l.map ANode.pt := by
  intro l
  induction l with
  | nil => rfl
  | cons n rest ih =>
    simp only [relaxFirst]
    by_cases h : n.pt = c
    · rw [if_pos h]
      by_cases hg : gS < n.g
      · rw [if_pos hg]
        simp only [List.map_cons]
        rw [show ANode.pt (ANode.mk c.x c.y c.z gS n.h (gS + n.h) (some par)) = c from rfl, h]
      · rw [if_neg hg]
    · rw [if_neg h]
      simp only [List.map_cons, ih]

theorem relaxFirst_persist (c : Pt) (gS : Int) (par : ANode) :
    ∀ l : List ANode, ∀ n ∈ l,
      ∃ m ∈ relaxFirst c gS par l, m.pt = n.pt ∧ m.g ≤ n.g ∧ m.h = n.h := by
  intro l
  induction l with
  | nil => intro n hn; simp at hn
  | cons hd rest ih =>
    intro n hn
    simp only [relaxFirst]
    rcases List.mem_cons.mp hn with rfl | hn2
    · by_cases h : n.pt = c
      · rw [if_pos h]
        by_cases hg : gS < n.g
        · rw [if_pos hg]
          refine ⟨ANode.mk c.x c.y c.z gS n.h (gS + n.h) (some par),
            List.mem_cons_self _ _, ?_, le_of_lt hg, rfl⟩
          rw [show ANode.pt (ANode.mk c.x c.y c.z gS n.h (gS + n.h) (some par)) = c from rfl, h]
        · rw [if_neg hg]
          exact ⟨n, List.mem_cons_self _ _, rfl, le_refl _, rfl⟩
      · rw [if_neg h]
        exact ⟨n, List.mem_cons_self _ _, rfl, le_refl _, rfl⟩
    · by_cases h : hd.pt = c
      · rw [if_pos h]
        by_cases hg : gS < hd.g
        · rw [if_pos hg]
          exact ⟨n, List.mem_cons_of_mem _ hn2, rfl, le_refl _, rfl⟩
        · rw [if_neg hg]
          exact ⟨n, List.mem_cons_of_mem _ hn2, rfl, le_refl _, rfl⟩
      · rw [if_neg h]
        obtain ⟨m, hm, hmp, hmg, hmh⟩ := ih n hn2
        exact ⟨m, List.mem_cons_of_mem _ hm, hmp, hmg, hmh⟩

theorem relaxFirst_NodeOK {N : ℕ} {s e : Pt} (c : Pt) (gS : Int) (par : ANode)
    (hpar : NodeOK N s e par) (hstep : heuristic par.pt c = 1) (hgS : gS = par.g + 1) :
    ∀ l : List ANode, (∀ n ∈ l, NodeOK N s e n) →
      ∀ m ∈ relaxFirst c gS par l, NodeOK N s e m := by
  intro l
  induction l with
  | nil => intro _ m hm; simp [relaxFirst] at hm
  | cons hd rest ih =>
    intro hok m hm
    simp only [relaxFirst] at hm
    by_cases h : hd.pt = c
    · rw [if_pos h] at hm
      by_cases hg : gS < hd.g
      · rw [if_pos hg] at hm
        rcases List.mem_cons.mp hm with rfl | hm2
        · obtain ⟨hh, hf, hgl, hlen, hge, hinb⟩ := hok hd (List.mem_cons_self _ _)
          obtain ⟨hph, hpf, hpgl, hplen, hpge, hpinb⟩ := hpar
          refine ⟨?_, rfl, ?_, ?_, ?_, ?_⟩
          · show hd.h = heuristic c e
            rw [hh, h]
          · show heuristic s c ≤ gS
            have ht := heuristic_triangle s par.pt c
            rw [hgS]
            linarith
          · show (reconstructPath par ++ [(⟨c.x, c.y, c.z⟩ : Pt)]).length = gS.toNat
            rw [List.length_append, hplen, hgS]
            simp
            omega
          · show (0 : Int) ≤ gS
            rw [hgS]
            linarith
          · show inBoundsI (freeGrid N) c.x c.y c.z
            rw [h] at hinb
            exact hinb
        · exact hok m (List.mem_cons_of_mem _ hm2)
      · rw [if_neg hg] at hm
        exact hok m hm
    · rw [if_neg h] at hm
      rcases List.mem_cons.mp hm with rfl | hm2
      · exact hok m (List.mem_cons_self _ _)
      · exact ih (fun n hn => hok n (List.mem_cons_of_mem _ hn)) m hm2

theorem relaxFirst_covers (c : Pt) (gS : Int) (par : ANode) :
    ∀ l : List ANode, (∃ n ∈ l, n.pt = c) →
      ∃ m ∈ relaxFirst c gS par l, m.pt = c ∧ m.g ≤ gS := by
  intro l
  induction l with
  | nil => intro h; simp at h
  | cons hd rest ih =>
    intro hex
    simp only [relaxFirst]
    by_cases h : hd.pt = c
    · rw [if_pos h]
      by_cases hg : gS < hd.g
      · rw [if_pos hg]
        refine ⟨ANode.mk c.x c.y c.z gS hd.h (gS + hd.h) (some par),
          List.mem_cons_self _ _, rfl, le_refl _⟩
      · rw [if_neg hg]
        push_neg at hg
        exact ⟨hd, List.mem_cons_self _ _, h, hg⟩
    · rw [if_neg h]
      obtain ⟨n, hn, hnp⟩ := hex
      rcases List.mem_cons.mp hn with rfl | hn2
      · exact absurd hnp h
      · obtain ⟨m, hm, hmp, hmg⟩ := ih ⟨n, hn2, hnp⟩
        exact ⟨m, List.mem_cons_of_mem _ hm, hmp, hmg⟩

theorem processNeighbor_NodeOK {N : ℕ} {s e : Pt} {current : ANode} {closed2 : List Pt}
    (hcur : NodeOK N s e current) {c : Pt}
    (hstep : heuristic current.pt c = 1)
    (hcinb : inBoundsI (freeGrid N) c.x c.y c.z) :
    ∀ l : List ANode, (∀ n ∈ l, NodeOK N s e n) →
      ∀ m ∈ processNeighbor current e closed2 l c, NodeOK N s e m := by
  intro l hok m hm
  unfold processNeighbor at hm
  by_cases hcl : c ∈ closed2
  · rw [if_pos hcl] at hm
    exact hok m hm
  · rw [if_neg hcl] at hm
    cases hfind : l.find? (fun n => decide (n.pt = c)) with
    | none =>
      rw [hfind] at hm
      rcases List.mem_append.mp hm with h | h
      · exact hok m h
      · simp only [List.mem_singleton] at h
        subst h
        obtain ⟨hh, hf, hgl, hlen, hge, hinb⟩ := hcur
        refine ⟨rfl, rfl, ?_, ?_, ?_, ?_⟩
        · show heuristic s c ≤ current.g + 1
          have ht := heuristic_triangle s current.pt c
          linarith
        · show (reconstructPath current ++ [(⟨c.x, c.y, c.z⟩ : Pt)]).length
            = (current.g + 1).toNat
          rw [List.length_append, hlen]
          simp
          omega
        · show (0 : Int) ≤ current.g + 1
          linarith
        · exact hcinb
    | some n0 =>
      rw [hfind] at hm
      exact relaxFirst_NodeOK c (current.g + 1) current hcur hstep rfl l hok m hm

theorem processNeighbor_persist {current : ANode} {e : Pt} {closed2 : List Pt}
    (l : List ANode) (c : Pt) :
    ∀ n ∈ l, ∃ m ∈ processNeighbor current e closed2 l c, m.pt = n.pt ∧ m.g ≤ n.g := by
  intro n hn
  unfold processNeighbor
  by_cases hcl : c ∈ closed2
  · rw [if_pos hcl]
    exact ⟨n, hn, rfl, le_refl _⟩
  · rw [if_neg hcl]
    cases hfind : l.find? (fun n => decide (n.pt = c)) with
    | none => exact ⟨n, List.mem_append_left _ hn, rfl, le_refl _⟩
    | some n0 =>
      obtain ⟨m, hm, h1, h2, _⟩ := relaxFirst_persist c (current.g + 1) current l n hn
      exact ⟨m, hm, h1, h2⟩

theorem processNeighbor_nodup {current : ANode} {e : Pt} {closed2 : List Pt}
    (l : List ANode) (c : Pt) (hnd : (l.map ANode.pt).Nodup) :
    ((processNeighbor current e closed2 l c).map ANode.pt).Nodup := by
  unfold processNeighbor
  by_cases hcl : c ∈ closed2
  · rw [if_pos hcl]
    exact hnd
  · rw [if_neg hcl]
    cases hfind : l.find? (fun n => decide (n.pt = c)) with
    | none =>
      rw [List.map_append]
      have hnotin : ∀ n ∈ l, n.pt ≠ c := by
        intro n hn
        have := List.find?_eq_none.mp hfind n hn
        simpa using this
      refine List.Nodup.append hnd (List.nodup_singleton _) ?_
      intro a ha hb
      simp only [List.map_cons, List.map_nil, List.mem_singleton] at hb
      obtain ⟨n, hn, hnp⟩ := List.mem_map.mp ha
      apply hnotin n hn
      rw [hnp, hb]
      rfl
    | some n0 =>
      rw [relaxFirst_map_pt]
      exact hnd

theorem processNeighbor_avoid {current : ANode} {e : Pt} {closed2 : List Pt}
    (l : List ANode) (c : Pt) (hl : ∀ n ∈ l, n.pt ∉ closed2) :
    ∀ m ∈ processNeighbor current e closed2 l c, m.pt ∉ closed2 := by
  intro m hm
  unfold processNeighbor at hm
  by_cases hcl : c ∈ closed2
  · rw [if_pos hcl] at hm
    exact hl m hm
  · rw [if_neg hcl] at hm
    cases hfind : l.find? (fun n => decide (n.pt = c)) with
    | none =>
      rw [hfind] at hm
      rcases List.mem_append.mp hm with h | h
      · exact hl m h
      · simp only [List.mem_singleton] at h
        subst h
        exact hcl
    | some n0 =>
      rw [hfind] at hm
      rcases relaxFirst_pt_mem hm with h | h
      · rw [h]
        exact hcl
      · obtain ⟨n, hn, hnp⟩ := List.mem_map.mp h
        rw [← hnp]
        exact hl n hn

theorem processNeighbor_covers {current : ANode} {e : Pt} {closed2 : List Pt}
    (l : List ANode) (c : Pt) (hcl : c ∉ closed2) :
    ∃ m ∈ processNeighbor current e closed2 l c, m.pt = c ∧ m.g ≤ current.g + 1 := by
  unfold processNeighbor
  rw [if_neg hcl]
  cases hfind : l.find? (fun n => decide (n.pt = c)) with
  | none =>
    refine ⟨ANode.mk c.x c.y c.z (current.g + 1) (heuristic c e)
      ((current.g + 1) + heuristic c e) (some current), ?_, rfl, le_refl _⟩
    exact List.mem_append_right _ (List.mem_singleton_self _)
  | some n0 =>
    have hn0m : n0 ∈ l := List.mem_of_find?_eq_some hfind
    have hn0p : n0.pt = c := by
      have := List.find?_some hfind
      simpa using this
    exact relaxFirst_covers c (current.g + 1) current l ⟨n0, hn0m, hn0p⟩

theorem foldl_processNeighbor_NodeOK {N : ℕ} {s e : Pt} {current : ANode} {closed2 : List Pt}
    (hcur : NodeOK N s e current) :
    ∀ (nbs : List Pt) (b : List ANode),
      (∀ c ∈ nbs, heuristic current.pt c = 1 ∧ inBoundsI (freeGrid N) c.x c.y c.z) →
      (∀ n ∈ b, NodeOK N s e n) →
      ∀ m ∈ nbs.foldl (processNeighbor current e closed2) b, NodeOK N s e m := by
  intro nbs
  induction nbs with
  | nil => intro b _ hok m hm; exact hok m hm
  | cons c rest ih =>
    intro b hnb hok m hm
    simp only [List.foldl_cons] at hm
    exact ih _ (fun c2 hc2 => hnb c2 (List.mem_cons_of_mem _ hc2))
      (processNeighbor_NodeOK hcur (hnb c (List.mem_cons_self _ _)).1
        (hnb c (List.mem_cons_self _ _)).2 b hok) m hm

theorem foldl_processNeighbor_persist {current : ANode} {e : Pt} {closed2 : List Pt} :
    ∀ (nbs : List Pt) (b : List ANode) (n : ANode), n ∈ b →
      ∃ m ∈ nbs.foldl (processNeighbor current e closed2) b, m.pt = n.pt ∧ m.g ≤ n.g := by
  intro nbs
  induction nbs with
  | nil => intro b n hn; exact ⟨n, hn, rfl, le_refl _⟩
  | cons c rest ih =>
    intro b n hn
    simp only [List.foldl_cons]
    obtain ⟨m1, hm1, h1p, h1g⟩ := processNeighbor_persist b c n hn
    obtain ⟨m2, hm2, h2p, h2g⟩ := ih _ m1 hm1
    exact ⟨m2, hm2, h2p.trans h1p, le_trans h2g h1g⟩

theorem foldl_processNeighbor_nodup {current : ANode} {e : Pt} {closed2 : List Pt} :
    ∀ (nbs : List Pt) (b : List ANode), (b.map ANode.pt).Nodup →
      ((nbs.foldl (processNeighbor current e closed2) b).map ANode.pt).Nodup := by
  intro nbs
  induction nbs with
  | nil => intro b h; exact h
  | cons c rest ih =>
    intro b h
    simp only [List.foldl_cons]
    exact ih _ (processNeighbor_nodup b c h)

theorem foldl_processNeighbor_avoid {current : ANode} {e : Pt} {closed2 : List Pt} :
    ∀ (nbs : List Pt) (b : List ANode), (∀ n ∈ b, n.pt ∉ closed2) →
      ∀ m ∈ nbs.foldl (processNeighbor current e closed2) b, m.pt ∉ closed2 := by
  intro nbs
  induction nbs with
  | nil => intro b h m hm; exact h m hm
  | cons c rest ih =>
    intro b h m hm
    simp only [List.foldl_cons] at hm
    exact ih _ (processNeighbor_avoid b c h) m hm

theorem foldl_processNeighbor_covers {current : ANode} {e : Pt} {closed2 : List Pt} :
    ∀ (nbs : List Pt) (b : List ANode), ∀ c ∈ nbs, c ∉ closed2 →
      ∃ m ∈ nbs.foldl (processNeighbor current e closed2) b,
        m.pt = c ∧ m.g ≤ current.g + 1 := by
  intro nbs
  induction nbs with
  | nil => intro b c hc; simp at hc
  | cons c0 rest ih =>
    intro b c hc hcl
    simp only [List.foldl_cons]
    rcases List.mem_cons.mp hc with rfl | hc2
    · obtain ⟨m1, hm1, h1p, h1g⟩ := processNeighbor_covers b c hcl
      obtain ⟨m2, hm2, h2p, h2g⟩ := foldl_processNeighbor_persist rest _ m1 hm1
      exact ⟨m2, hm2, h2p.trans h1p, le_trans h2g h1g⟩
    · exact ih _ c hc2 hcl

/-- Walking along a shortest path through the closed set from any closed
cell eventually reaches an open node with exact cost on a shortest path:
each closed cell's expansion left its successor either closed (one step
closer to the goal, so the walk terminates) or open with exact cost. -/
theorem walk_to_open (N : ℕ) (s e : Pt) (hy : s.y = e.y)
    (heb : inBoundsI (freeGrid N) e.x e.y e.z)
    (openL2 : List ANode) (closed2 : List Pt)
    (hcs : ∀ c ∈ closed2, heuristic s c + heuristic c e = heuristic s e)
    (hcne : ∀ c ∈ closed2, c ≠ e)
    (hcinb : ∀ c ∈ closed2, inBoundsI (freeGrid N) c.x c.y c.z)
    (hexp : ∀ c ∈ closed2, ∀ c2 ∈ getNeighbors (freeGrid N) c.x c.y c.z,
        c2 ∈ closed2 ∨ ∃ n ∈ openL2, n.pt = c2 ∧ n.g ≤ heuristic s c + 1)
    (hgl : ∀ n ∈ openL2, heuristic s n.pt ≤ n.g) :
    ∀ (k : ℕ) (c : Pt), (heuristic c e).toNat ≤ k → c ∈ closed2 →
      ∃ n ∈ openL2, n.g = heuristic s n.pt ∧
        heuristic s n.pt + heuristic n.pt e = heuristic s e := by
  intro k
  induction k with
  | zero =>
    intro c hk hc
    exfalso
    have hnn := heuristic_nonneg c e
    have h0 : heuristic c e = 0 := by omega
    exact hcne c hc (heuristic_eq_zero h0)
  | succ k ih =>
    intro c hk hc
    have hcy : c.y = e.y := by
      have h1 := hcs c hc
      simp only [heuristic, Int.abs_eq_natAbs] at h1
      omega
    have hne : c ≠ e := hcne c hc
    obtain ⟨hmem, hdist, hstep1⟩ := stepToward_facts (hcinb c hc) heb hne hcy
    rcases hexp c hc (stepToward c e) hmem with hin | ⟨n, hn, hnp, hng⟩
    · apply ih (stepToward c e) ?_ hin
      have h2 := heuristic_nonneg (stepToward c e) e
      omega
    · have h3 := heuristic_triangle s (stepToward c e) e
      have h4 := hgl n hn
      rw [hnp] at h4
      have hcs2 := hcs c hc
      have h5 : heuristic s c + 1 ≤ heuristic s (stepToward c e) := by
        linarith
      refine ⟨n, hn, ?_, ?_⟩
      · rw [hnp]
        linarith
      · rw [hnp]
        linarith

/-- The full loop invariant of the search on the free grid. -/
structure AInv (N : ℕ) (s e : Pt) (openL : List ANode) (closed : List Pt) : Prop where
  onodup : (openL.map ANode.pt).Nodup
  odisj : ∀ n ∈ openL, n.pt ∉ closed
  cnodup : closed.Nodup
  ook : ∀ n ∈ openL, NodeOK N s e n
  cinb : ∀ c ∈ closed, inBoundsI (freeGrid N) c.x c.y c.z
  cshort : ∀ c ∈ closed, heuristic s c + heuristic c e = heuristic s e
  cne : ∀ c ∈ closed, c ≠ e
  cexp : ∀ c ∈ closed, ∀ c2 ∈ getNeighbors (freeGrid N) c.x c.y c.z,
      c2 ∈ closed ∨ ∃ n ∈ openL, n.pt = c2 ∧ n.g ≤ heuristic s c + 1
  wit : ∃ n ∈ openL, n.g = heuristic s n.pt ∧
      heuristic s n.pt + heuristic n.pt e = heuristic s e

theorem sortOpen_mem {openL : List ANode} {n : ANode} :
    n ∈ sortOpen openL ↔ n ∈ openL :=
  (List.perm_insertionSort _ openL).mem_iff

theorem sortOpen_map_perm (openL : List ANode) :
    List.Perm ((sortOpen openL).map ANode.pt) (openL.map ANode.pt) :=
  (List.perm_insertionSort _ openL).map ANode.pt

theorem sortOpen_head_le {openL : List ANode} {current : ANode} {rest : List ANode}
    (hs : sortOpen openL = current :: rest) :
    ∀ m ∈ openL, current.f ≤ m.f := by
  haveI h1 : IsTotal ANode (fun a b : ANode => a.f ≤ b.f) := ⟨fun a b => le_total a.f b.f⟩
  haveI h2 : IsTrans ANode (fun a b : ANode => a.f ≤ b.f) :=
    ⟨fun a b c hab hbc => le_trans hab hbc⟩
  have hsorted := List.sorted_insertionSort (fun a b : ANode => a.f ≤ b.f) openL
  rw [show List.insertionSort (fun a b : ANode => a.f ≤ b.f) openL = sortOpen openL
    from rfl, hs] at hsorted
  intro m hm
  have hm2 : m ∈ current :: rest := by
    rw [← hs]
    exact sortOpen_mem.mpr hm
  rcases List.mem_cons.mp hm2 with rfl | hm3
  · exact le_refl _
  · exact (List.sorted_cons.mp hsorted).1 m hm3

theorem closed_card_bound (N : ℕ) (closed : List Pt) (hnd : closed.Nodup)
    (hin : ∀ c ∈ closed, inBoundsI (freeGrid N) c.x c.y c.z) :
    closed.length ≤ N ^ 3 := by
  classical
  set S : Finset Pt := Finset.image (fun t : ℤ × ℤ × ℤ => (⟨t.1, t.2.1, t.2.2⟩ : Pt))
    ((Finset.Icc (0 : ℤ) (N - 1)) ×ˢ ((Finset.Icc (0 : ℤ) (N - 1))
      ×ˢ (Finset.Icc (0 : ℤ) (N - 1)))) with hS
  have hsub : closed.toFinset ⊆ S := by
    intro c hcf
    have hc := List.mem_toFinset.mp hcf
    have hb := hin c hc
    unfold inBoundsI at hb
    rw [freeGrid_length] at hb
    rw [hS]
    apply Finset.mem_image.mpr
    refine ⟨(c.x, c.y, c.z), ?_, rfl⟩
    simp only [Finset.mem_product, Finset.mem_Icc]
    omega
  have hcard : closed.toFinset.card = closed.length := List.toFinset_card_of_nodup hnd
  have hScard : S.card ≤ N ^ 3 := by
    rw [hS]
    apply le_trans (Finset.card_image_le)
    rw [Finset.card_product, Finset.card_product, Int.card_Icc]
    have : ((N : ℤ) - 1 + 1 - 0).toNat = N := by omega
    rw [this]
    ring_nf
    omega
  have := Finset.card_le_card hsub
  omega

/-- Main loop lemma: under the invariant, with enough fuel, the loop returns
a path of length exactly the Manhattan distance from start to goal. -/
theorem aStarLoop_free_correct (N : ℕ) (s e : Pt) (hy : s.y = e.y)
    (heb : inBoundsI (freeGrid N) e.x e.y e.z) :
    ∀ (fuel : ℕ) (openL : List ANode) (closed : List Pt),
      AInv N s e openL closed →
      N ^ 3 + 1 ≤ fuel + closed.length →
      (aStarLoop (freeGrid N) e fuel openL closed).length = (heuristic s e).toNat := by
  intro fuel
  induction fuel with
  | zero =>
    intro openL closed inv hfuel
    exfalso
    have := closed_card_bound N closed inv.cnodup inv.cinb
    omega
  | succ fuel ih =>
    intro openL closed inv hfuel
    unfold aStarLoop
    cases hs : sortOpen openL with
    | nil =>
      exfalso
      obtain ⟨n, hn, _, _⟩ := inv.wit
      have hmem : n ∈ sortOpen openL := sortOpen_mem.mpr hn
      rw [hs] at hmem
      simp at hmem
    | cons current rest =>
      have hcurmem : current ∈ openL := sortOpen_mem.mp (hs ▸ List.mem_cons_self current rest)
      have hminf := sortOpen_head_le hs
      obtain ⟨nw, hnw, hnwg, hnwsp⟩ := inv.wit
      obtain ⟨hwh, hwf, hwgl, _, _, _⟩ := inv.ook nw hnw
      have hfw : nw.f = heuristic s e := by
        rw [hwf, hwh, hnwg]
        linarith [hnwsp]
      obtain ⟨hch, hcf, hcgl, hclen, hcge, hcinb2⟩ := inv.ook current hcurmem
      have hcur_le : current.f ≤ heuristic s e := hfw ▸ hminf nw hnw
      have htr : heuristic s e ≤ heuristic s current.pt + heuristic current.pt e :=
        heuristic_triangle s current.pt e
      have hgexact : current.g = heuristic s current.pt := by
        rw [hcf, hch] at hcur_le
        linarith
      have hsp : heuristic s current.pt + heuristic current.pt e = heuristic s e := by
        rw [hcf, hch] at hcur_le
        linarith
      by_cases hend : current.pt = e
      · simp only [if_pos hend]
        rw [hclen, hgexact, hend]
      · simp only [if_neg hend]
        have hrestmem : ∀ m ∈ rest, m ∈ openL := fun m hm =>
          sortOpen_mem.mp (hs ▸ List.mem_cons_of_mem _ hm)
        have hsortnodup : ((current :: rest).map ANode.pt).Nodup := by
          have hperm := sortOpen_map_perm openL
          rw [hs] at hperm
          exact hperm.nodup_iff.mpr inv.onodup
        have hrestnodup : (rest.map ANode.pt).Nodup :=
          (List.nodup_cons.mp (by simpa using hsortnodup)).2
        have hcurnotrest : current.pt ∉ rest.map ANode.pt :=
          (List.nodup_cons.mp (by simpa using hsortnodup)).1
        have hnbfacts : ∀ c ∈ getNeighbors (freeGrid N) current.x current.y current.z,
            heuristic current.pt c = 1 ∧ inBoundsI (freeGrid N) c.x c.y c.z :=
          fun c hc => ⟨heuristic_of_mem_getNeighbors hc, (mem_getNeighbors hc).1⟩
        have hrestok : ∀ n ∈ rest, NodeOK N s e n := fun n hn => inv.ook n (hrestmem n hn)
        have hrestdisj : ∀ n ∈ rest, n.pt ∉ current.pt :: closed := by
          intro n hn
          simp only [List.mem_cons]
          push_neg
          constructor
          · intro hcontra
            exact hcurnotrest (hcontra ▸ List.mem_map_of_mem ANode.pt hn)
          · exact inv.odisj n (hrestmem n hn)
        have hookNew : ∀ m ∈ (getNeighbors (freeGrid N) current.x current.y
            current.z).foldl (processNeighbor current e (current.pt :: closed)) rest,
            NodeOK N s e m :=
          foldl_processNeighbor_NodeOK ⟨hch, hcf, hcgl, hclen, hcge, hcinb2⟩ _ _
            hnbfacts hrestok
        have hexpNew : ∀ c ∈ current.pt :: closed,
            ∀ c2 ∈ getNeighbors (freeGrid N) c.x c.y c.z,
              c2 ∈ current.pt :: closed ∨
              ∃ n ∈ (getNeighbors (freeGrid N) current.x current.y current.z).foldl
                  (processNeighbor current e (current.pt :: closed)) rest,
                n.pt = c2 ∧ n.g ≤ heuristic s c + 1 := by
          intro c hcmem c2 hc2
          rcases List.mem_cons.mp hcmem with rfl | hcold
          · by_cases hc2cl : c2 ∈ current.pt :: closed
            · exact Or.inl hc2cl
            · right
              obtain ⟨m, hm, hmp, hmg⟩ :=
                foldl_processNeighbor_covers _ rest c2 hc2 hc2cl
              exact ⟨m, hm, hmp, by rw [← hgexact]; linarith⟩
          · rcases inv.cexp c hcold c2 hc2 with hc2cl | ⟨n, hn, hnp, hng⟩
            · exact Or.inl (List.mem_cons_of_mem _ hc2cl)
            · have hn2 : n ∈ current :: rest := by
                rw [← hs]
                exact sortOpen_mem.mpr hn
              rcases List.mem_cons.mp hn2 with rfl | hnrest
              · left
                rw [← hnp]
                exact List.mem_cons_self _ _
              · right
                obtain ⟨m, hm, hmp, hmg⟩ :=
                  foldl_processNeighbor_persist _ rest n hnrest
                exact ⟨m, hm, hmp.trans hnp, le_trans hmg hng⟩
        refine ih _ _ ⟨?_, ?_, ?_, hookNew, ?_, ?_, ?_, hexpNew, ?_⟩ ?_
        · exact foldl_processNeighbor_nodup _ rest hrestnodup
        · exact foldl_processNeighbor_avoid _ rest hrestdisj
        · exact List.nodup_cons.mpr ⟨inv.odisj current hcurmem, inv.cnodup⟩
        · intro c hcmem
          rcases List.mem_cons.mp hcmem with rfl | hcold
          · exact hcinb2
          · exact inv.cinb c hcold
        · intro c hcmem
          rcases List.mem_cons.mp hcmem with rfl | hcold
          · exact hsp
          · exact inv.cshort c hcold
        · intro c hcmem
          rcases List.mem_cons.mp hcmem with rfl | hcold
          · exact hend
          · exact inv.cne c hcold
        · apply walk_to_open N s e hy heb _ _
            (by
              intro c hcmem
              rcases List.mem_cons.mp hcmem with rfl | hcold
              · exact hsp
              · exact inv.cshort c hcold)
            (by
              intro c hcmem
              rcases List.mem_cons.mp hcmem with rfl | hcold
              · exact hend
              · exact inv.cne c hcold)
            (by
              intro c hcmem
              rcases List.mem_cons.mp hcmem with rfl | hcold
              · exact hcinb2
              · exact inv.cinb c hcold)
            hexpNew
            (fun n hn => (hookNew n hn).2.2.1)
            (heuristic current.pt e).toNat current.pt (le_refl _)
            (List.mem_cons_self _ _)
        · simp only [List.length_cons]
          omega

/-- C2: for every start and goal with equal y-coordinate on an obstacle-free
grid, both within bounds, `findPath` returns a path whose length (waypoints,
start exclusive, goal inclusive) equals the 3-axis Manhattan distance between
start and goal: the A* search with the Manhattan heuristic and unit step cost
returns an optimal path. -/
theorem findPath_free_grid_length (N : ℕ) (sx sy sz ex ey ez : Int)
    (hy : sy = ey)
    (hsb : inBoundsI (freeGrid N) sx sy sz)
    (heb : inBoundsI (freeGrid N) ex ey ez) :
    (findPath (freeGrid N) sx sy sz ex ey ez).length =
      (heuristic ⟨sx, sy, sz⟩ ⟨ex, ey, ez⟩).toNat := by
  unfold findPath
  by_cases hsame : sx = ex ∧ sy = ey ∧ sz = ez
  · rw [if_pos hsame]
    obtain ⟨h1, h2, h3⟩ := hsame
    subst h1
    subst h2
    subst h3
    simp [heuristic]
  · rw [if_neg hsame]
    apply aStarLoop_free_correct N ⟨sx, sy, sz⟩ ⟨ex, ey, ez⟩ hy heb
    · refine ⟨?_, ?_, ?_, ?_, ?_, ?_, ?_, ?_, ?_⟩
      · simp
      · intro n _ hmem
        exact absurd hmem (List.not_mem_nil _)
      · exact List.nodup_nil
      · intro n hn
        rcases List.mem_singleton.mp hn with rfl
        refine ⟨rfl, ?_, ?_, rfl, le_refl 0, hsb⟩
        · show heuristic ⟨sx, sy, sz⟩ ⟨ex, ey, ez⟩ =
            0 + heuristic ⟨sx, sy, sz⟩ ⟨ex, ey, ez⟩
          ring
        · show heuristic ⟨sx, sy, sz⟩ ⟨sx, sy, sz⟩ ≤ 0
          exact le_of_eq (heuristic_self _)
      · intro c hc
        exact absurd hc (List.not_mem_nil c)
      · intro c hc
        exact absurd hc (List.not_mem_nil c)
      · intro c hc
        exact absurd hc (List.not_mem_nil c)
      · intro c hc
        exact absurd hc (List.not_mem_nil c)
      · refine ⟨ANode.mk sx sy sz 0 (heuristic ⟨sx, sy, sz⟩ ⟨ex, ey, ez⟩)
          (heuristic ⟨sx, sy, sz⟩ ⟨ex, ey, ez⟩) none, List.mem_singleton.mpr rfl, ?_, ?_⟩
        · show (0 : Int) = heuristic ⟨sx, sy, sz⟩ ⟨sx, sy, sz⟩
          exact (heuristic_self _).symm
        · show heuristic ⟨sx, sy, sz⟩ ⟨sx, sy, sz⟩ +
            heuristic ⟨sx, sy, sz⟩ ⟨ex, ey, ez⟩ =
            heuristic ⟨sx, sy, sz⟩ ⟨ex, ey, ez⟩
          rw [heuristic_self]
          ring
    · simp only [freeGrid_length, List.length_nil]
      omega

/-- Witness for C2: on the obstacle-free 3x3x3 grid, the path from
(0,1,0) to (2,1,2) has length 4, the Manhattan distance. -/
theorem findPath_free_grid_length_witness :
    (1 : Int) = 1 ∧ inBoundsI (freeGrid 3) 0 1 0 ∧ inBoundsI (freeGrid 3) 2 1 2 ∧
    (findPath (freeGrid 3) 0 1 0 2 1 2).length =
      (heuristic ⟨0, 1, 0⟩ ⟨2, 1, 2⟩).toNat :=
  ⟨rfl, by decide, by decide,
    findPath_free_grid_length 3 0 1 0 2 1 2 rfl (by decide) (by decide)⟩

end HyperQ
